import Mathlib

/-!
Verification of the `ado_cli` prototype CLI library: configuration-path
resolution (`ado_cli/config.py`) and output rendering (`ado_cli/output.py`).

The Python code is shallowly embedded:
* the process environment (`os.getenv`) is passed explicitly as a map
  `EnvMap` from variable names to optional values;
* the filesystem is passed explicitly as an existence predicate
  `String → Bool` (the code only calls `Path.exists`);
* `Path.home()` is passed explicitly as the string parameter `sysHome`;
* `pathlib` paths are represented as strings, with the `/` operator as
  `joinPath`; `pathlib`'s path normalisation is not modelled (no verified
  property depends on it);
* Python truthiness of optional strings (`if explicit_path:`) is `pyTruthy`:
  `None` and the empty string are falsy.
-/

namespace Ado

/-- A process environment as a map from variable names to optional values;
`env k` models `os.getenv(k)`. -/
def EnvMap : Type := String → Option String

/-- Python truthiness of an `Optional[str]`: `None` and `""` are falsy. -/
def pyTruthy : Option String → Bool
  | none => false
  | some s => !(s == "")

/-- The `pathlib` `/` operator on the paths this code builds. -/
def joinPath (p q : String) : String := p ++ "/" ++ q

/-- Embedding of `default_search_paths` from `ado_cli/config.py`:
two candidates, the first from `XDG_CONFIG_HOME` when that variable is
truthy and `<home>/.config/ado/config.yaml` otherwise, the second always
`<home>/.ado/config.yaml`.  `home_dir` is `home or Path.home()`. -/
def default_search_paths (env : EnvMap) (home : Option String) (sysHome : String) :
    List String :=
  let home_dir := home.getD sysHome
  let xdg := env "XDG_CONFIG_HOME"
  (if pyTruthy xdg then joinPath (joinPath (xdg.getD "") "ado") "config.yaml"
   else joinPath (joinPath (joinPath home_dir ".config") "ado") "config.yaml")
  :: [joinPath (joinPath home_dir ".ado") "config.yaml"]

/-- The `for candidate in search_paths: if candidate.exists(): return ...`
loop of `resolve_config_path`: the first path the filesystem reports as
existing, if any. -/
def firstExisting (fs : String → Bool) : List String → Option String
  | [] => none
  | c :: rest => if fs c then some c else firstExisting fs rest

/-- Embedding of `resolve_config_path` from `ado_cli/config.py`. -/
def resolve_config_path (env : EnvMap) (fs : String → Bool)
    (explicit_path : Option String) (env_path : Option String)
    (home : Option String) (sysHome : String) :
    Option String × List String :=
  let search_paths := default_search_paths env home sysHome
  if pyTruthy explicit_path then
    (some (explicit_path.getD ""), explicit_path.getD "" :: search_paths)
  else if pyTruthy env_path then
    (some (env_path.getD ""), env_path.getD "" :: search_paths)
  else
    (firstExisting fs search_paths, search_paths)

/-! ## The payload universe and the output renderer

`format_output` in `ado_cli/output.py` serializes an arbitrary Python value
with `json.dumps(payload, indent=2)` or `yaml.safe_dump(payload,
sort_keys=False)`.  `Value` models the payload universe: JSON-style data
(with insertion-ordered mappings) plus `pyobj`, an object neither structured
format can represent.  The two serializers are external library calls, so
they are modelled here: `dumpJsonVal` follows `json.dumps` with a 2-space
indent (non-ASCII characters are emitted literally where CPython would
escape them, a parse-equivalent choice), and `yamlDumpVal` follows
`yaml.safe_dump`'s block style without key sorting (scalar quoting is
modelled at the granularity the resolver needs: plain for safe alphabetic
words, single-quoted for other printable strings, double-quoted with escapes
otherwise; nested-container layout is approximate, flat payloads exact).
Serialization failure is an explicit `SerializationError` result, modelling
the `TypeError` and `RepresenterError` the libraries raise to the caller. -/

mutual
inductive Value where
  | null
  | bool (b : Bool)
  | int (n : Int)
  | str (s : String)
  | list (items : ValueItems)
  | dict (entries : ValueEntries)
  | pyobj (descr : String)
inductive ValueItems where
  | nil
  | cons (hd : Value) (tl : ValueItems)
inductive ValueEntries where
  | nil
  | cons (key : String) (val : Value) (tl : ValueEntries)
end

/-- An error raised by a structured serializer and propagated to the caller
(`json.dumps` raises `TypeError`, `yaml.safe_dump` raises
`RepresenterError`; the spec calls both a `SerializationError`). -/
inductive SerializationError where
  | typeError (msg : String)
  | representerError (msg : String)

mutual
def serializableVal : Value → Bool
  | .null => true
  | .bool _ => true
  | .int _ => true
  | .str _ => true
  | .list items => serializableItems items
  | .dict entries => serializableEntries entries
  | .pyobj _ => false
def serializableItems : ValueItems → Bool
  | .nil => true
  | .cons v t => serializableVal v && serializableItems t
def serializableEntries : ValueEntries → Bool
  | .nil => true
  | .cons _ v t => serializableVal v && serializableEntries t
end

/-- Scalar (non-container, representable) values. -/
def isScalar : Value → Bool
  | .null => true
  | .bool _ => true
  | .int _ => true
  | .str _ => true
  | .list _ => false
  | .dict _ => false
  | .pyobj _ => false

def allScalarItems : ValueItems → Bool
  | .nil => true
  | .cons v t => isScalar v && allScalarItems t

def allScalarEntries : ValueEntries → Bool
  | .nil => true
  | .cons _ v t => isScalar v && allScalarEntries t

/-- A mapping or sequence of primitives, the payload shape of claim C8. -/
def flatPayload : Value → Bool
  | .list items => allScalarItems items
  | .dict entries => allScalarEntries entries
  | _ => false

/-- Characters the serializers need, kept out of string literals. -/
def nlChar : Char := Char.ofNat 10
def dqChar : Char := Char.ofNat 34
def sqChar : Char := Char.ofNat 39
def bsChar : Char := Char.ofNat 92
def lbChar : Char := Char.ofNat 123
def rbChar : Char := Char.ofNat 125

def spaces (n : Nat) : List Char := List.replicate n ' '

def digitChar (n : Nat) : Char := Char.ofNat (48 + n)

/-- Decimal digits of `n`, most significant first; fuelled so that it
reduces definitionally (`fuel > n` suffices). -/
def writeNatAux : Nat → Nat → List Char
  | 0, _ => []
  | fuel + 1, n => if n < 10 then [digitChar n] else writeNatAux fuel (n / 10) ++ [digitChar (n % 10)]

def writeNat (n : Nat) : List Char := writeNatAux (n + 1) n

/-- Decimal rendering of an integer, as Python `repr` produces it. -/
def intChars (n : Int) : List Char :=
  if n < 0 then '-' :: writeNat n.natAbs else writeNat n.toNat

def hexDigitChar (n : Nat) : Char :=
  if n < 10 then Char.ofNat (48 + n) else Char.ofNat (87 + n)

/-- JSON string escaping of one character, following `json.dumps`: the two
quoting characters, the named control escapes, `\u00XX` for other control
characters, and the character itself otherwise. -/
def escChar (c : Char) : List Char :=
  if c = dqChar then [bsChar, dqChar]
  else if c = bsChar then [bsChar, bsChar]
  else if c = nlChar then [bsChar, 'n']
  else if c = Char.ofNat 9 then [bsChar, 't']
  else if c = Char.ofNat 13 then [bsChar, 'r']
  else if c = Char.ofNat 8 then [bsChar, 'b']
  else if c = Char.ofNat 12 then [bsChar, 'f']
  else if c.toNat < 32 then
    bsChar :: 'u' :: '0' :: '0' :: hexDigitChar (c.toNat / 16) :: [hexDigitChar (c.toNat % 16)]
  else [c]

def escList (l : List Char) : List Char := (l.map escChar).flatten

/-- The JSON text of a scalar value (`[]` on non-scalars, which the dumper
never emits). -/
def jsonScalarChars : Value → List Char
  | .null => "null".data
  | .bool true => "true".data
  | .bool false => "false".data
  | .int n => intChars n
  | .str s => dqChar :: escList s.data ++ [dqChar]
  | _ => []

mutual
/-- Model of `json.dumps(payload, indent=2)` at nesting depth `d`. -/
def dumpJsonVal : Value → Nat → Except SerializationError (List Char)
  | .null, _ => .ok (jsonScalarChars .null)
  | .bool b, _ => .ok (jsonScalarChars (.bool b))
  | .int n, _ => .ok (jsonScalarChars (.int n))
  | .str s, _ => .ok (jsonScalarChars (.str s))
  | .list .nil, _ => .ok ('[' :: [']'])
  | .list (.cons v t), d =>
    match dumpJsonItems (.cons v t) (d + 1) with
    | .error e => .error e
    | .ok body => .ok ('[' :: nlChar :: body ++ nlChar :: spaces (2 * d) ++ [']'])
  | .dict .nil, _ => .ok (lbChar :: [rbChar])
  | .dict (.cons k v t), d =>
    match dumpJsonEntries (.cons k v t) (d + 1) with
    | .error e => .error e
    | .ok body => .ok (lbChar :: nlChar :: body ++ nlChar :: spaces (2 * d) ++ [rbChar])
  | .pyobj r, _ => .error (.typeError ("Object of type " ++ r ++ " is not JSON serializable"))
/-- The comma-joined, indented member lines of a JSON array body. -/
def dumpJsonItems : ValueItems → Nat → Except SerializationError (List Char)
  | .nil, _ => .ok []
  | .cons v t, d =>
    match dumpJsonVal v d with
    | .error e => .error e
    | .ok c =>
      match t with
      | .nil => .ok (spaces (2 * d) ++ c)
      | .cons _ _ =>
        match dumpJsonItems t d with
        | .error e => .error e
        | .ok rest => .ok (spaces (2 * d) ++ c ++ ',' :: nlChar :: rest)
/-- The comma-joined, indented member lines of a JSON object body. -/
def dumpJsonEntries : ValueEntries → Nat → Except SerializationError (List Char)
  | .nil, _ => .ok []
  | .cons k v t, d =>
    match dumpJsonVal v d with
    | .error e => .error e
    | .ok c =>
      match t with
      | .nil => .ok (spaces (2 * d) ++ dqChar :: escList k.data ++ dqChar :: ':' :: ' ' :: c)
      | .cons _ _ _ =>
        match dumpJsonEntries t d with
        | .error e => .error e
        | .ok rest =>
          .ok (spaces (2 * d) ++ dqChar :: escList k.data ++ dqChar :: ':' :: ' ' :: c
            ++ ',' :: nlChar :: rest)
end

def lowerChars (l : List Char) : List Char := l.map Char.toLower

/-- Words a YAML plain scalar may not spell (they would resolve to a
non-string type), lower-cased. -/
def reservedLows : List (List Char) :=
  ["true", "false", "null", "yes", "no", "on", "off"].map String.data

/-- Strings `yaml.safe_dump` may emit as plain (unquoted) scalars in this
model: non-empty alphanumeric words starting with a letter that do not
resolve to a boolean or null. -/
def yamlPlainSafe (s : String) : Bool :=
  match s.data with
  | [] => false
  | c :: cs =>
    c.isAlpha && (c :: cs).all Char.isAlphanum && !(reservedLows.contains (lowerChars (c :: cs)))

/-- Single-quoted YAML escaping: the quote is doubled. -/
def sqEsc (l : List Char) : List Char :=
  (l.map (fun c => if c = sqChar then [sqChar, sqChar] else [c])).flatten

/-- The YAML text of a scalar value (`[]` on non-scalars). -/
def yamlScalarChars : Value → List Char
  | .null => "null".data
  | .bool true => "true".data
  | .bool false => "false".data
  | .int n => intChars n
  | .str s =>
    if yamlPlainSafe s then s.data
    else if s.data.all (fun c => 32 ≤ c.toNat) then sqChar :: sqEsc s.data ++ [sqChar]
    else dqChar :: escList s.data ++ [dqChar]
  | _ => []

mutual
/-- Model of `yaml.safe_dump(payload, sort_keys=False)`: block style, keys
in insertion order, emitted as lines indented by `2 * d`. -/
def yamlDumpVal : Value → Nat → Except SerializationError (List Char)
  | .list .nil, d => .ok (spaces (2 * d) ++ '[' :: ']' :: [nlChar])
  | .dict .nil, d => .ok (spaces (2 * d) ++ lbChar :: rbChar :: [nlChar])
  | .list (.cons v t), d => yamlDumpItems (.cons v t) d
  | .dict (.cons k v t), d => yamlDumpEntries (.cons k v t) d
  | .pyobj r, _ =>
    .error (.representerError ("cannot represent an object: " ++ r))
  | v, d => .ok (spaces (2 * d) ++ yamlScalarChars v ++ [nlChar])
/-- Block-style sequence lines (`- item`). -/
def yamlDumpItems : ValueItems → Nat → Except SerializationError (List Char)
  | .nil, _ => .ok []
  | .cons v t, d =>
    if isScalar v then
      match yamlDumpItems t d with
      | .error e => .error e
      | .ok rest => .ok (spaces (2 * d) ++ '-' :: ' ' :: yamlScalarChars v ++ nlChar :: rest)
    else
      match yamlDumpVal v (d + 1) with
      | .error e => .error e
      | .ok block =>
        match yamlDumpItems t d with
        | .error e => .error e
        | .ok rest => .ok (spaces (2 * d) ++ '-' :: nlChar :: block ++ rest)
/-- Block-style mapping lines (`key: value`), insertion order preserved. -/
def yamlDumpEntries : ValueEntries → Nat → Except SerializationError (List Char)
  | .nil, _ => .ok []
  | .cons k v t, d =>
    if isScalar v then
      match yamlDumpEntries t d with
      | .error e => .error e
      | .ok rest =>
        .ok (spaces (2 * d) ++ yamlScalarChars (.str k) ++ ':' :: ' ' :: yamlScalarChars v
          ++ nlChar :: rest)
    else
      match yamlDumpVal v (d + 1) with
      | .error e => .error e
      | .ok block =>
        match yamlDumpEntries t d with
        | .error e => .error e
        | .ok rest =>
          .ok (spaces (2 * d) ++ yamlScalarChars (.str k) ++ ':' :: nlChar :: block ++ rest)
end

/-- Embedding of `format_output` from `ado_cli/output.py`: `"json"` and
`"yaml"` dispatch to the structured serializers (whose failure propagates to
the caller), every other format returns `render_text()` verbatim. -/
def format_output (format : String) (payload : Value) (render_text : Unit → String) :
    Except SerializationError String :=
  if format = "json" then
    match dumpJsonVal payload 0 with
    | .error e => .error e
    | .ok cs => .ok (String.mk cs)
  else if format = "yaml" then
    match yamlDumpVal payload 0 with
    | .error e => .error e
    | .ok cs => .ok (String.mk cs)
  else .ok (render_text ())


/-- Discriminator for `Except` results. -/
def isOkE {e a : Type} : Except e a → Bool
  | .ok _ => true
  | .error _ => false

/-! ## Parsers

To state the round-trip half of claim C8 the serialized texts are parsed
back.  The parsers below read the JSON (respectively block-style YAML)
fragment that flat payloads serialize into; the container loops carry
explicit fuel so that every function reduces definitionally. -/

def isWsChar (c : Char) : Bool :=
  c = ' ' || c = nlChar || c = Char.ofNat 9 || c = Char.ofNat 13

def skipWs : List Char → List Char
  | [] => []
  | c :: rest => if isWsChar c then skipWs rest else c :: rest

def readNatAux : List Char → Nat → Nat × List Char
  | [], acc => (acc, [])
  | c :: rest, acc =>
    if c.isDigit then readNatAux rest (acc * 10 + (c.toNat - 48)) else (acc, c :: rest)

def readNat : List Char → Option (Nat × List Char)
  | [] => none
  | c :: rest => if c.isDigit then some (readNatAux (c :: rest) 0) else none

def readInt (cs : List Char) : Option (Int × List Char) :=
  match cs with
  | [] => none
  | c :: rest =>
    if c = '-' then (readNat rest).map (fun p => (-(p.1 : Int), p.2))
    else (readNat (c :: rest)).map (fun p => ((p.1 : Int), p.2))

def hexVal (c : Char) : Option Nat :=
  if 97 ≤ c.toNat ∧ c.toNat ≤ 102 then some (c.toNat - 87)
  else if c.isDigit then some (c.toNat - 48)
  else none

/-- Body of a double-quoted JSON/YAML string after the opening quote:
`acc` holds the characters read so far, reversed; the fuel (any bound on the
number of source characters) keeps the recursion structural. -/
def readStrBody : Nat → List Char → List Char → Option (String × List Char)
  | 0, _, _ => none
  | _ + 1, [], _ => none
  | fuel + 1, c :: rest, acc =>
    if c = dqChar then some (String.mk acc.reverse, rest)
    else if c = bsChar then
      match rest with
      | [] => none
      | e :: rest2 =>
        if e = dqChar then readStrBody fuel rest2 (dqChar :: acc)
        else if e = bsChar then readStrBody fuel rest2 (bsChar :: acc)
        else if e = 'n' then readStrBody fuel rest2 (nlChar :: acc)
        else if e = 't' then readStrBody fuel rest2 (Char.ofNat 9 :: acc)
        else if e = 'r' then readStrBody fuel rest2 (Char.ofNat 13 :: acc)
        else if e = 'b' then readStrBody fuel rest2 (Char.ofNat 8 :: acc)
        else if e = 'f' then readStrBody fuel rest2 (Char.ofNat 12 :: acc)
        else if e = 'u' then
          match rest2 with
          | h1 :: h2 :: h3 :: h4 :: rest3 =>
            match hexVal h1, hexVal h2, hexVal h3, hexVal h4 with
            | some a, some b2, some c2, some d2 =>
              readStrBody fuel rest3 (Char.ofNat (((a * 16 + b2) * 16 + c2) * 16 + d2) :: acc)
            | _, _, _, _ => none
          | _ => none
        else none
    else readStrBody fuel rest (c :: acc)

/-- A double-quoted string body, with enough fuel for its input. -/
def readStr (cs : List Char) : Option (String × List Char) :=
  readStrBody (cs.length + 1) cs []

/-- Body of a single-quoted YAML string after the opening quote; a doubled
quote is an escaped quote. -/
def readSqBody : Nat → List Char → List Char → Option (String × List Char)
  | 0, _, _ => none
  | _ + 1, [], _ => none
  | fuel + 1, c :: rest, acc =>
    if c = sqChar then
      match rest with
      | c2 :: rest2 =>
        if c2 = sqChar then readSqBody fuel rest2 (sqChar :: acc)
        else some (String.mk acc.reverse, c2 :: rest2)
      | [] => some (String.mk acc.reverse, [])
    else readSqBody fuel rest (c :: acc)

/-- A single-quoted string body, with enough fuel for its input. -/
def readSq (cs : List Char) : Option (String × List Char) :=
  readSqBody (cs.length + 1) cs []

/-- One JSON scalar: a string, a number, or a literal word. -/
def readJsonScalar : List Char → Option (Value × List Char)
  | [] => none
  | c :: rest =>
    if c = dqChar then (readStr rest).map (fun p => (.str p.1, p.2))
    else if c = '-' ∨ c.isDigit then (readInt (c :: rest)).map (fun p => (.int p.1, p.2))
    else if "null".data.isPrefixOf (c :: rest) then some (.null, (c :: rest).drop 4)
    else if "true".data.isPrefixOf (c :: rest) then some (.bool true, (c :: rest).drop 4)
    else if "false".data.isPrefixOf (c :: rest) then some (.bool false, (c :: rest).drop 5)
    else none

/-- Members of a JSON array of scalars, positioned at the first member;
consumes the closing bracket. -/
def readJsonItemsLoop : Nat → List Char → Option (ValueItems × List Char)
  | 0, _ => none
  | fuel + 1, cs =>
    match readJsonScalar cs with
    | none => none
    | some (v, r1) =>
      match skipWs r1 with
      | [] => none
      | c2 :: r2 =>
        if c2 = ',' then
          match readJsonItemsLoop fuel (skipWs r2) with
          | some (t, r) => some (.cons v t, r)
          | none => none
        else if c2 = ']' then some (.cons v .nil, r2)
        else none

/-- Members of a JSON object with scalar values, positioned at the first
key; consumes the closing brace. -/
def readJsonEntriesLoop : Nat → List Char → Option (ValueEntries × List Char)
  | 0, _ => none
  | fuel + 1, cs =>
    match cs with
    | [] => none
    | c :: rest =>
      if c = dqChar then
        match readStr rest with
        | none => none
        | some (k, r1) =>
          match skipWs r1 with
          | [] => none
          | c3 :: r2 =>
            if c3 = ':' then
              match readJsonScalar (skipWs r2) with
              | none => none
              | some (v, r3) =>
                match skipWs r3 with
                | [] => none
                | c5 :: r5 =>
                  if c5 = ',' then
                    match readJsonEntriesLoop fuel (skipWs r5) with
                    | some (t, r) => some (.cons k v t, r)
                    | none => none
                  else if c5 = rbChar then some (.cons k v .nil, r5)
                  else none
            else none
      else none

/-- A JSON document of the flat fragment: an array or object of scalars, or
a single scalar, with insignificant whitespace. -/
def parseJsonFlat (s : String) : Option Value :=
  match skipWs s.data with
  | [] => none
  | c :: rest =>
    if c = lbChar then
      match skipWs rest with
      | [] => none
      | c2 :: r2 =>
        if c2 = rbChar then (if skipWs r2 = [] then some (.dict .nil) else none)
        else
          match readJsonEntriesLoop (r2.length + 2) (c2 :: r2) with
          | some (entries, r) => if skipWs r = [] then some (.dict entries) else none
          | none => none
    else if c = '[' then
      match skipWs rest with
      | [] => none
      | c2 :: r2 =>
        if c2 = ']' then (if skipWs r2 = [] then some (.list .nil) else none)
        else
          match readJsonItemsLoop (r2.length + 2) (c2 :: r2) with
          | some (items, r) => if skipWs r = [] then some (.list items) else none
          | none => none
    else
      match readJsonScalar (c :: rest) with
      | some (v, r) => if skipWs r = [] then some v else none
      | none => none

/-- YAML 1.1 resolution of a plain scalar, as PyYAML's `safe_load` applies
it: an integer shape is an integer, the boolean and null words (in any
case) are booleans and null, anything else is a string. -/
def resolvePlain (chars : List Char) : Option Value :=
  match chars with
  | [] => none
  | c :: cs =>
    match readInt (c :: cs) with
    | some (n, []) => some (.int n)
    | _ =>
      let lw := lowerChars (c :: cs)
      if lw = "null".data ∨ (c :: cs) = ['~'] then some .null
      else if lw = "true".data ∨ lw = "yes".data ∨ lw = "on".data then some (.bool true)
      else if lw = "false".data ∨ lw = "no".data ∨ lw = "off".data then some (.bool false)
      else some (.str (String.mk (c :: cs)))

/-- One YAML scalar occupying the rest of the line, and the following
newline. -/
def readYamlScalarNl (cs : List Char) : Option (Value × List Char) :=
  match cs with
  | [] => none
  | c :: rest =>
    if c = sqChar then
      match readSq rest with
      | some (s, r) =>
        match r with
        | r0 :: r2 => if r0 = nlChar then some (.str s, r2) else none
        | [] => none
      | none => none
    else if c = dqChar then
      match readStr rest with
      | some (s, r) =>
        match r with
        | r0 :: r2 => if r0 = nlChar then some (.str s, r2) else none
        | [] => none
      | none => none
    else
      match resolvePlain ((c :: rest).takeWhile (fun x => x != nlChar)) with
      | some v =>
        match (c :: rest).dropWhile (fun x => x != nlChar) with
        | r0 :: r2 => if r0 = nlChar then some (v, r2) else none
        | [] => none
      | none => none

/-- A YAML mapping key: quoted, or plain up to the colon. -/
def readYamlKey (cs : List Char) : Option (String × List Char) :=
  match cs with
  | [] => none
  | c :: rest =>
    if c = sqChar then readSq rest
    else if c = dqChar then readStr rest
    else
      some (String.mk ((c :: rest).takeWhile (fun x => x != ':')),
        (c :: rest).dropWhile (fun x => x != ':'))

/-- One `key: value` line of a block mapping, including its newline. -/
def readYamlEntryLine (cs : List Char) : Option (String × Value × List Char) :=
  match readYamlKey cs with
  | none => none
  | some (k, r) =>
    match r with
    | c1 :: c2 :: r2 =>
      if c1 = ':' ∧ c2 = ' ' then
        match readYamlScalarNl r2 with
        | some (v, rr) => some (k, v, rr)
        | none => none
      else none
    | _ => none

/-- The `- item` lines of a block sequence of scalars, to end of input. -/
def readYamlListLoop : Nat → List Char → Option ValueItems
  | _, [] => some .nil
  | 0, _ :: _ => none
  | fuel + 1, c :: rest =>
    if c = '-' then
      match rest with
      | c2 :: rest2 =>
        if c2 = ' ' then
          match readYamlScalarNl rest2 with
          | some (v, r) =>
            match readYamlListLoop fuel r with
            | some t => some (.cons v t)
            | none => none
          | none => none
        else none
      | [] => none
    else none

/-- The `key: value` lines of a block mapping of scalars, to end of input. -/
def readYamlDictLoop : Nat → List Char → Option ValueEntries
  | _, [] => some .nil
  | 0, _ :: _ => none
  | fuel + 1, c :: rest =>
    match readYamlEntryLine (c :: rest) with
    | some (k, v, r) =>
      match readYamlDictLoop fuel r with
      | some t => some (.cons k v t)
      | none => none
    | none => none

/-- A block-style YAML document of the flat fragment: a sequence or mapping
of scalars (flow style for the empty containers, as `safe_dump` emits
them). -/
def parseYamlFlat (s : String) : Option Value :=
  match s.data with
  | [] => none
  | c :: rest =>
    if c = lbChar then (if rest = [rbChar, nlChar] then some (.dict .nil) else none)
    else if c = '[' then (if rest = [']', nlChar] then some (.list .nil) else none)
    else if c = '-' then
      match readYamlListLoop (rest.length + 1) (c :: rest) with
      | some items => some (.list items)
      | none => none
    else
      match readYamlDictLoop (rest.length + 1) (c :: rest) with
      | some entries => some (.dict entries)
      | none => none

def itemsCount : ValueItems → Nat
  | .nil => 0
  | .cons _ t => itemsCount t + 1

def entriesCount : ValueEntries → Nat
  | .nil => 0
  | .cons _ _ t => entriesCount t + 1

/-- The body of a non-empty flat JSON array, without the first member's
two-space indent: members separated by a comma, a newline and the indent of
the next member. -/
def jsonItemsEmit : ValueItems → List Char
  | .nil => []
  | .cons v .nil => jsonScalarChars v
  | .cons v t => jsonScalarChars v ++ ',' :: nlChar :: spaces 2 ++ jsonItemsEmit t

/-- The body of a non-empty flat JSON object, without the first member's
two-space indent. -/
def jsonEntriesEmit : ValueEntries → List Char
  | .nil => []
  | .cons k v .nil => dqChar :: escList k.data ++ dqChar :: ':' :: ' ' :: jsonScalarChars v
  | .cons k v t =>
    dqChar :: escList k.data ++ dqChar :: ':' :: ' ' :: jsonScalarChars v
      ++ ',' :: nlChar :: spaces 2 ++ jsonEntriesEmit t

/-- The lines of a flat block-style YAML sequence. -/
def yamlItemsEmit : ValueItems → List Char
  | .nil => []
  | .cons v t => '-' :: ' ' :: yamlScalarChars v ++ nlChar :: yamlItemsEmit t

/-- The lines of a flat block-style YAML mapping. -/
def yamlEntriesEmit : ValueEntries → List Char
  | .nil => []
  | .cons k v t =>
    yamlScalarChars (.str k) ++ ':' :: ' ' :: yamlScalarChars v ++ nlChar :: yamlEntriesEmit t

/-! ## Theorems -/

theorem pyTruthy_some_ne {s : String} (h : s ≠ "") : pyTruthy (some s) = true := by
  simp [pyTruthy, h]

theorem firstExisting_mem {fs : String → Bool} :
    ∀ {l : List String} {p : String}, firstExisting fs l = some p → p ∈ l ∧ fs p = true := by
  intro l
  induction l with
  | nil => intro p h; simp [firstExisting] at h
  | cons c rest ih =>
    intro p h
    by_cases hc : fs c = true
    · simp [firstExisting, hc] at h
      subst h
      exact ⟨List.mem_cons_self c rest, hc⟩
    · simp [firstExisting, hc] at h
      rcases ih h with ⟨hm, hf⟩
      exact ⟨List.mem_cons_of_mem c hm, hf⟩

/-- C1: a truthy explicit path is returned as-is, prepended to the default
search order, for any environment path, and independently of the filesystem
(no existence check); the default search order has the two elements
`default1, default2`. -/
theorem resolve_explicit_path (env : EnvMap) (fs fs2 : String → Bool) (e : String)
    (he : e ≠ "") (envp : Option String) (home : Option String) (sys : String) :
    resolve_config_path env fs (some e) envp home sys
      = (some e, e :: default_search_paths env home sys)
    ∧ resolve_config_path env fs (some e) envp home sys
      = resolve_config_path env fs2 (some e) envp home sys
    ∧ (default_search_paths env home sys).length = 2 := by
  refine ⟨?_, ?_, ?_⟩ <;> simp [resolve_config_path, pyTruthy_some_ne he, default_search_paths]

theorem resolve_explicit_path_witness :
    resolve_config_path (fun _ => none) (fun _ => false)
        (some "/etc/ado.yaml") (some "/e.yaml") (some "/home/u") "/home/u"
      = (some "/etc/ado.yaml",
          "/etc/ado.yaml" :: default_search_paths (fun _ => none) (some "/home/u") "/home/u") :=
  (resolve_explicit_path (fun _ => none) (fun _ => false) (fun _ => true)
    "/etc/ado.yaml" (by decide) (some "/e.yaml") (some "/home/u") "/home/u").1

/-- C4: with a falsy explicit path and a truthy environment path, the
environment path is returned as-is, prepended to the default search order,
independently of the filesystem (no existence check). -/
theorem resolve_env_path (env : EnvMap) (fs fs2 : String → Bool) (ex : Option String)
    (hx : pyTruthy ex = false) (v : String) (hv : v ≠ "")
    (home : Option String) (sys : String) :
    resolve_config_path env fs ex (some v) home sys
      = (some v, v :: default_search_paths env home sys)
    ∧ resolve_config_path env fs ex (some v) home sys
      = resolve_config_path env fs2 ex (some v) home sys
    ∧ (default_search_paths env home sys).length = 2 := by
  refine ⟨?_, ?_, ?_⟩ <;>
    simp [resolve_config_path, hx, pyTruthy_some_ne hv, default_search_paths]

theorem resolve_env_path_witness :
    resolve_config_path (fun _ => none) (fun _ => false)
        none (some "/tmp/env-config.yaml") (some "/home/u") "/home/u"
      = (some "/tmp/env-config.yaml",
          ["/tmp/env-config.yaml", "/home/u/.config/ado/config.yaml",
            "/home/u/.ado/config.yaml"]) := by
  have h := (resolve_env_path (fun _ => none) (fun _ => false) (fun _ => true)
    none (by decide) "/tmp/env-config.yaml" (by decide) (some "/home/u") "/home/u").1
  rw [h]
  rfl

/-- C5: with falsy explicit and environment paths, resolution scans the
default search order and returns the first existing candidate together with
the search order; the head is preferred whenever it exists, and if no
candidate exists the result is `(none, searchOrder)`. -/
theorem resolve_scan (env : EnvMap) (fs : String → Bool) (ex ev : Option String)
    (hx : pyTruthy ex = false) (hv : pyTruthy ev = false)
    (home : Option String) (sys : String) :
    resolve_config_path env fs ex ev home sys
      = (firstExisting fs (default_search_paths env home sys),
          default_search_paths env home sys)
    ∧ (∀ p rest, default_search_paths env home sys = p :: rest → fs p = true →
        (resolve_config_path env fs ex ev home sys).1 = some p)
    ∧ ((∀ p ∈ default_search_paths env home sys, fs p = false) →
        resolve_config_path env fs ex ev home sys
          = (none, default_search_paths env home sys)) := by
  have hmain : resolve_config_path env fs ex ev home sys
      = (firstExisting fs (default_search_paths env home sys),
          default_search_paths env home sys) := by
    simp [resolve_config_path, hx, hv]
  refine ⟨hmain, ?_, ?_⟩
  · intro p rest hsearch hp
    rw [hmain, hsearch]
    simp [firstExisting, hp]
  · intro hnone
    rw [hmain]
    have : firstExisting fs (default_search_paths env home sys) = none := by
      cases h : firstExisting fs (default_search_paths env home sys) with
      | none => rfl
      | some p =>
        rcases firstExisting_mem h with ⟨hm, hf⟩
        rw [hnone p hm] at hf
        cases hf
    rw [this]

theorem resolve_scan_witness :
    resolve_config_path (fun _ => none)
        (fun p => p == "/home/u/.config/ado/config.yaml") none none (some "/home/u") "/home/u"
      = (firstExisting (fun p => p == "/home/u/.config/ado/config.yaml")
            (default_search_paths (fun _ => none) (some "/home/u") "/home/u"),
          default_search_paths (fun _ => none) (some "/home/u") "/home/u") :=
  (resolve_scan (fun _ => none) (fun p => p == "/home/u/.config/ado/config.yaml")
    none none (by decide) (by decide) (some "/home/u") "/home/u").1

/-- C6: the returned search-path list is never empty, and a present resolved
path is the explicit path, the environment path, or the first default
candidate the filesystem reports as existing (in particular it exists and is
a default candidate). -/
theorem resolve_invariant (env : EnvMap) (fs : String → Bool) (ex ev : Option String)
    (home : Option String) (sys : String) :
    (resolve_config_path env fs ex ev home sys).2 ≠ []
    ∧ (∀ p, (resolve_config_path env fs ex ev home sys).1 = some p →
        ex = some p ∨ ev = some p
        ∨ (firstExisting fs (default_search_paths env home sys) = some p
            ∧ fs p = true ∧ p ∈ default_search_paths env home sys)) := by
  constructor
  · by_cases hx : pyTruthy ex = true
    · simp [resolve_config_path, hx]
    · by_cases hv : pyTruthy ev = true <;>
        simp [resolve_config_path, hx, hv, default_search_paths]
  · intro p hp
    by_cases hx : pyTruthy ex = true
    · left
      simp [resolve_config_path, hx] at hp
      cases ex with
      | none => simp [pyTruthy] at hx
      | some s => simpa using congrArg some hp
    · by_cases hv : pyTruthy ev = true
      · right; left
        simp [resolve_config_path, hx, hv] at hp
        cases ev with
        | none => simp [pyTruthy] at hv
        | some s => simpa using congrArg some hp
      · right; right
        simp only [resolve_config_path, hx, hv] at hp
        simp only [Bool.not_eq_true] at hx hv
        simp [hx, hv] at hp
        rcases firstExisting_mem hp with ⟨hm, hf⟩
        exact ⟨hp, hf, hm⟩

theorem resolve_invariant_witness :
    (resolve_config_path (fun _ => none) (fun _ => false)
        (some "/etc/a.yaml") none (some "/home/u") "/home/u").2 ≠ [] :=
  (resolve_invariant (fun _ => none) (fun _ => false)
    (some "/etc/a.yaml") none (some "/home/u") "/home/u").1

/-- C7: the default search order has exactly two entries; the second is
always `<home>/.ado/config.yaml`; the first is `<xdg>/ado/config.yaml` when
the XDG override is set (non-empty, per the XDG base-directory convention
the code follows) and `<home>/.config/ado/config.yaml` otherwise. -/
theorem default_search_paths_spec (env : EnvMap) (h sys : String) :
    (default_search_paths env (some h) sys).length = 2
    ∧ (default_search_paths env (some h) sys)[1]? = some (h ++ "/.ado/config.yaml")
    ∧ (∀ x, env "XDG_CONFIG_HOME" = some x → x ≠ "" →
        (default_search_paths env (some h) sys)[0]? = some (x ++ "/ado/config.yaml"))
    ∧ (pyTruthy (env "XDG_CONFIG_HOME") = false →
        (default_search_paths env (some h) sys)[0]?
          = some (h ++ "/.config/ado/config.yaml")) := by
  refine ⟨by simp [default_search_paths], ?_, ?_, ?_⟩
  · simp [default_search_paths, joinPath, String.append_assoc]
  · intro x hx hne
    simp [default_search_paths, hx, pyTruthy_some_ne hne, joinPath, String.append_assoc]
  · intro hfalse
    simp [default_search_paths, hfalse, joinPath, String.append_assoc]

theorem default_search_paths_spec_witness :
    (default_search_paths (fun k => if k = "XDG_CONFIG_HOME" then some "/xdg" else none)
        (some "/home/u") "/home/u")[0]? = some ("/xdg" ++ "/ado/config.yaml") :=
  (default_search_paths_spec (fun k => if k = "XDG_CONFIG_HOME" then some "/xdg" else none)
    "/home/u" "/home/u").2.2.1 "/xdg" (by decide) (by decide)

/-- C3 counterexample: `resolve_config_path` does read the process
environment directly (via `default_search_paths`, which calls
`os.getenv("XDG_CONFIG_HOME")`): two runs with identical arguments and
identical filesystem state differ when `XDG_CONFIG_HOME` differs. -/
theorem resolve_reads_xdg_cx :
    resolve_config_path (fun k => if k = "XDG_CONFIG_HOME" then some "/xdg" else none)
        (fun _ => false) none none (some "/home/u") "/home/u"
      ≠ resolve_config_path (fun _ => none) (fun _ => false)
          none none (some "/home/u") "/home/u" := by
  decide

/-- C3 amended: the resolver reads the environment only through the XDG
base-directory override: two runs with identical arguments, identical
filesystem state and the same value of `XDG_CONFIG_HOME` return identical
results even if every other environment variable differs. -/
theorem resolve_env_reads_only_xdg (env1 env2 : EnvMap) (fs : String → Bool)
    (ex ev home : Option String) (sys : String)
    (hxdg : env1 "XDG_CONFIG_HOME" = env2 "XDG_CONFIG_HOME") :
    resolve_config_path env1 fs ex ev home sys
      = resolve_config_path env2 fs ex ev home sys := by
  simp [resolve_config_path, default_search_paths, hxdg]

theorem resolve_env_reads_only_xdg_witness :
    resolve_config_path (fun k => if k = "ADO_CONFIG" then some "/a.yaml" else none)
        (fun _ => false) none none (some "/home/u") "/home/u"
      = resolve_config_path (fun _ => none) (fun _ => false)
          none none (some "/home/u") "/home/u" :=
  resolve_env_reads_only_xdg (fun k => if k = "ADO_CONFIG" then some "/a.yaml" else none)
    (fun _ => none) (fun _ => false) none none (some "/home/u") "/home/u" (by decide)

/-- C10: an empty-string explicit path (or environment path) is treated
exactly like `None`: resolution falls through to the next stage. -/
theorem resolve_empty_string_as_none (env : EnvMap) (fs : String → Bool)
    (ex ev : Option String) (home : Option String) (sys : String) :
    resolve_config_path env fs (some "") ev home sys
      = resolve_config_path env fs none ev home sys
    ∧ resolve_config_path env fs ex (some "") home sys
      = resolve_config_path env fs ex none home sys := by
  constructor
  · simp [resolve_config_path, pyTruthy]
  · simp [resolve_config_path, pyTruthy]


mutual
theorem dumpJsonVal_isOk (v : Value) (d : Nat) :
    isOkE (dumpJsonVal v d) = serializableVal v := by
  cases v with
  | null => rfl
  | bool b => rfl
  | int n => rfl
  | str s => rfl
  | pyobj r => rfl
  | list items =>
    cases items with
    | nil => rfl
    | cons v2 t =>
      have h := dumpJsonItems_isOk (.cons v2 t) (d + 1)
      simp only [dumpJsonVal, serializableVal]
      rw [← h]
      cases hd : dumpJsonItems (.cons v2 t) (d + 1) <;> simp [isOkE]
  | dict entries =>
    cases entries with
    | nil => rfl
    | cons k v2 t =>
      have h := dumpJsonEntries_isOk (.cons k v2 t) (d + 1)
      simp only [dumpJsonVal, serializableVal]
      rw [← h]
      cases hd : dumpJsonEntries (.cons k v2 t) (d + 1) <;> simp [isOkE]
theorem dumpJsonItems_isOk (items : ValueItems) (d : Nat) :
    isOkE (dumpJsonItems items d) = serializableItems items := by
  cases items with
  | nil => rfl
  | cons v t =>
    have h1 := dumpJsonVal_isOk v d
    simp only [dumpJsonItems, serializableItems]
    rw [← h1]
    cases hv : dumpJsonVal v d with
    | error e => simp [isOkE]
    | ok c =>
      cases t with
      | nil => simp [isOkE, serializableItems]
      | cons v2 t2 =>
        have h2 := dumpJsonItems_isOk (.cons v2 t2) d
        rw [← h2]
        cases ht : dumpJsonItems (.cons v2 t2) d <;> simp [isOkE]
theorem dumpJsonEntries_isOk (entries : ValueEntries) (d : Nat) :
    isOkE (dumpJsonEntries entries d) = serializableEntries entries := by
  cases entries with
  | nil => rfl
  | cons k v t =>
    have h1 := dumpJsonVal_isOk v d
    simp only [dumpJsonEntries, serializableEntries]
    rw [← h1]
    cases hv : dumpJsonVal v d with
    | error e => simp [isOkE]
    | ok c =>
      cases t with
      | nil => simp [isOkE, serializableEntries]
      | cons k2 v2 t2 =>
        have h2 := dumpJsonEntries_isOk (.cons k2 v2 t2) d
        rw [← h2]
        cases ht : dumpJsonEntries (.cons k2 v2 t2) d <;> simp [isOkE]
end

mutual
theorem yamlDumpVal_isOk (v : Value) (d : Nat) :
    isOkE (yamlDumpVal v d) = serializableVal v := by
  cases v with
  | null => rfl
  | bool b => cases b <;> rfl
  | int n => rfl
  | str s => rfl
  | pyobj r => rfl
  | list items =>
    cases items with
    | nil => rfl
    | cons v2 t =>
      have h := yamlDumpItems_isOk (.cons v2 t) d
      simp only [yamlDumpVal, serializableVal]
      rw [← h]
  | dict entries =>
    cases entries with
    | nil => rfl
    | cons k v2 t =>
      have h := yamlDumpEntries_isOk (.cons k v2 t) d
      simp only [yamlDumpVal, serializableVal]
      rw [← h]
theorem yamlDumpItems_isOk (items : ValueItems) (d : Nat) :
    isOkE (yamlDumpItems items d) = serializableItems items := by
  cases items with
  | nil => rfl
  | cons v t =>
    have h1 := yamlDumpVal_isOk v (d + 1)
    have h2 := yamlDumpItems_isOk t d
    simp only [yamlDumpItems, serializableItems]
    by_cases hs : isScalar v = true
    · have hv : serializableVal v = true := by
        cases v <;> simp_all [isScalar, serializableVal]
      rw [hs]
      simp only [if_true]
      rw [← h2, hv]
      cases ht : yamlDumpItems t d <;> simp [isOkE]
    · simp only [Bool.not_eq_true] at hs
      rw [hs]
      simp only [Bool.false_eq_true, if_false]
      rw [← h1, ← h2]
      cases hv2 : yamlDumpVal v (d + 1) with
      | error e => simp [isOkE]
      | ok block => cases ht : yamlDumpItems t d <;> simp [isOkE]
theorem yamlDumpEntries_isOk (entries : ValueEntries) (d : Nat) :
    isOkE (yamlDumpEntries entries d) = serializableEntries entries := by
  cases entries with
  | nil => rfl
  | cons k v t =>
    have h1 := yamlDumpVal_isOk v (d + 1)
    have h2 := yamlDumpEntries_isOk t d
    simp only [yamlDumpEntries, serializableEntries]
    by_cases hs : isScalar v = true
    · have hv : serializableVal v = true := by
        cases v <;> simp_all [isScalar, serializableVal]
      rw [hs]
      simp only [if_true]
      rw [← h2, hv]
      cases ht : yamlDumpEntries t d <;> simp [isOkE]
    · simp only [Bool.not_eq_true] at hs
      rw [hs]
      simp only [Bool.false_eq_true, if_false]
      rw [← h1, ← h2]
      cases hv2 : yamlDumpVal v (d + 1) with
      | error e => simp [isOkE]
      | ok block => cases ht : yamlDumpEntries t d <;> simp [isOkE]
end

/-- C2: with format `"json"` or `"yaml"`, `format_output` fails exactly when
the payload contains a value the structured format cannot represent, the
failure reaches the caller as a `SerializationError` result, and a
serializable payload always renders without error. -/
theorem format_output_serialization (fmt : String) (p : Value) (f : Unit → String)
    (hfmt : fmt = "json" ∨ fmt = "yaml") :
    ((∃ e, format_output fmt p f = .error e) ↔ serializableVal p = false)
    ∧ (serializableVal p = true → ∃ s, format_output fmt p f = .ok s) := by
  rcases hfmt with h | h <;> subst h
  · have hj := dumpJsonVal_isOk p 0
    constructor
    · constructor
      · rintro ⟨e, he⟩
        simp only [format_output, if_pos rfl] at he
        cases hd : dumpJsonVal p 0 with
        | error e2 => rw [hd] at hj; simpa [isOkE] using hj.symm
        | ok cs => rw [hd] at he; cases he
      · intro hser
        rw [hser] at hj
        cases hd : dumpJsonVal p 0 with
        | error e2 => exact ⟨e2, by simp [format_output, hd]⟩
        | ok cs => rw [hd] at hj; simp [isOkE] at hj
    · intro hser
      rw [hser] at hj
      cases hd : dumpJsonVal p 0 with
      | error e2 => rw [hd] at hj; simp [isOkE] at hj
      | ok cs => exact ⟨String.mk cs, by simp [format_output, hd]⟩
  · have hy := yamlDumpVal_isOk p 0
    constructor
    · constructor
      · rintro ⟨e, he⟩
        simp only [format_output] at he
        norm_num at he
        cases hd : yamlDumpVal p 0 with
        | error e2 => rw [hd] at hy; simpa [isOkE] using hy.symm
        | ok cs => rw [hd] at he; cases he
      · intro hser
        rw [hser] at hy
        cases hd : yamlDumpVal p 0 with
        | error e2 => exact ⟨e2, by simp [format_output, hd]⟩
        | ok cs => rw [hd] at hy; simp [isOkE] at hy
    · intro hser
      rw [hser] at hy
      cases hd : yamlDumpVal p 0 with
      | error e2 => rw [hd] at hy; simp [isOkE] at hy
      | ok cs => exact ⟨String.mk cs, by simp [format_output, hd]⟩

theorem format_output_serialization_witness :
    ((∃ e, format_output "json" (.pyobj "ValueError") (fun _ => "") = .error e)
        ↔ serializableVal (.pyobj "ValueError") = false)
    ∧ (serializableVal (.pyobj "ValueError") = true
        → ∃ s, format_output "json" (.pyobj "ValueError") (fun _ => "") = .ok s) :=
  format_output_serialization "json" (.pyobj "ValueError") (fun _ => "") (Or.inl rfl)

/-- C9: every format other than `"json"` and `"yaml"` (including the default
`"text"`) returns exactly the string produced by the caller-supplied
`render_text`, for every payload. -/
theorem format_output_text (fmt : String) (p : Value) (f : Unit → String)
    (h1 : fmt ≠ "json") (h2 : fmt ≠ "yaml") :
    format_output fmt p f = .ok (f ()) := by
  simp [format_output, h1, h2]

theorem format_output_text_witness :
    format_output "text" (.pyobj "anything") (fun _ => "hello world") = .ok "hello world" :=
  format_output_text "text" (.pyobj "anything") (fun _ => "hello world")
    (by decide) (by decide)



/-! ### Character-level helper lemmas -/

theorem ne_of_pred (p : Char → Bool) {c d : Char} (hc : p c = true) (hd : p d = false) :
    c ≠ d := by
  intro he
  rw [he, hd] at hc
  cases hc

theorem alpha_not_digit {c : Char} (h : c.isAlpha = true) : c.isDigit = false := by
  simp [Char.isAlpha, Char.isUpper, Char.isLower, Char.isDigit, Char.le_def, Char.lt_def,
    UInt32.le_def, UInt32.lt_def, BitVec.le_def, BitVec.lt_def] at *
  omega

theorem digit_toNat {c : Char} (h : c.isDigit = true) : 48 ≤ c.toNat ∧ c.toNat ≤ 57 := by
  simp [Char.isDigit, Char.le_def, UInt32.le_def, BitVec.le_def] at h
  simpa [Char.toNat, UInt32.toNat] using h

theorem digitChar_isDigit {k : Nat} (h : k < 10) : (digitChar k).isDigit = true := by
  interval_cases k <;> decide

theorem digitChar_toNat {k : Nat} (h : k < 10) : (digitChar k).toNat = 48 + k := by
  interval_cases k <;> decide

/-! ### Decimal round trip -/

theorem writeNatAux_ne_nil : ∀ fuel n, n < fuel → writeNatAux fuel n ≠ [] := by
  intro fuel
  cases fuel with
  | zero => intro n h; omega
  | succ fuel =>
    intro n _
    by_cases h10 : n < 10
    · simp [writeNatAux, h10]
    · simp [writeNatAux, h10]

theorem writeNatAux_digits : ∀ fuel n, n < fuel → ∀ c ∈ writeNatAux fuel n, c.isDigit = true := by
  intro fuel
  induction fuel with
  | zero => intro n h; omega
  | succ fuel ih =>
    intro n hn c hc
    by_cases h10 : n < 10
    · simp [writeNatAux, h10] at hc
      subst hc
      exact digitChar_isDigit h10
    · simp only [writeNatAux, if_neg h10, List.mem_append, List.mem_singleton] at hc
      rcases hc with hc | hc
      · have hdiv : n / 10 < fuel := by
          have := Nat.div_lt_self (by omega : 0 < n) (by norm_num : 1 < 10)
          omega
        exact ih (n / 10) hdiv c hc
      · subst hc
        exact digitChar_isDigit (Nat.mod_lt n (by norm_num))

theorem readNatAux_stop (rest : List Char) (acc : Nat)
    (h : ∀ c l, rest = c :: l → c.isDigit = false) : readNatAux rest acc = (acc, rest) := by
  cases rest with
  | nil => rfl
  | cons c l => simp [readNatAux, h c l rfl]

theorem readNatAux_writeNatAux : ∀ fuel n acc rest, n < fuel →
    readNatAux (writeNatAux fuel n ++ rest) acc
      = readNatAux rest (acc * 10 ^ (writeNatAux fuel n).length + n) := by
  intro fuel
  induction fuel with
  | zero => intro n acc rest h; omega
  | succ fuel ih =>
    intro n acc rest hn
    by_cases h10 : n < 10
    · simp only [writeNatAux, if_pos h10, List.singleton_append, List.length_singleton]
      rw [show readNatAux (digitChar n :: rest) acc
          = readNatAux rest (acc * 10 + ((digitChar n).toNat - 48)) from by
        simp [readNatAux, digitChar_isDigit h10]]
      rw [digitChar_toNat h10]
      congr 1
      simp [pow_one]
    · have hdiv : n / 10 < fuel := by
        have := Nat.div_lt_self (by omega : 0 < n) (by norm_num : 1 < 10)
        omega
      simp only [writeNatAux, if_neg h10, List.append_assoc, List.singleton_append,
        List.length_append, List.length_singleton]
      rw [ih (n / 10) acc _ hdiv]
      have hd : (digitChar (n % 10)).isDigit = true := digitChar_isDigit (Nat.mod_lt n (by norm_num))
      rw [show readNatAux (digitChar (n % 10) :: rest) (acc * 10 ^ (writeNatAux fuel (n / 10)).length + n / 10)
          = readNatAux rest ((acc * 10 ^ (writeNatAux fuel (n / 10)).length + n / 10) * 10
              + ((digitChar (n % 10)).toNat - 48)) from by
        simp [readNatAux, hd]]
      rw [digitChar_toNat (Nat.mod_lt n (by norm_num))]
      congr 1
      rw [pow_succ]
      have h1 : (acc * 10 ^ (writeNatAux fuel (n / 10)).length + n / 10) * 10
          = acc * (10 ^ (writeNatAux fuel (n / 10)).length * 10) + n / 10 * 10 := by ring
      rw [h1]
      omega

theorem writeNat_ne_nil (n : Nat) : writeNat n ≠ [] := writeNatAux_ne_nil (n + 1) n (by omega)

theorem writeNat_digits (n : Nat) : ∀ c ∈ writeNat n, c.isDigit = true :=
  writeNatAux_digits (n + 1) n (by omega)

theorem readNat_writeNat (n : Nat) (rest : List Char)
    (h : ∀ c l, rest = c :: l → c.isDigit = false) :
    readNat (writeNat n ++ rest) = some (n, rest) := by
  cases hw : writeNat n with
  | nil => exact absurd hw (writeNat_ne_nil n)
  | cons c l =>
    have hc : c.isDigit = true := writeNat_digits n c (by rw [hw]; exact List.mem_cons_self c l)
    rw [List.cons_append]
    rw [show readNat (c :: (l ++ rest)) = some (readNatAux (c :: (l ++ rest)) 0) from by
      simp [readNat, hc]]
    rw [← List.cons_append, ← hw]
    unfold writeNat
    rw [readNatAux_writeNatAux (n + 1) n 0 rest (by omega)]
    rw [readNatAux_stop rest _ h]
    simp

theorem intChars_form (n : Int) :
    ∃ c l, intChars n = c :: l ∧ (c = '-' ∨ c.isDigit = true)
      ∧ ∀ x ∈ c :: l, x.isDigit = true ∨ x = '-' := by
  by_cases hn : n < 0
  · refine ⟨'-', writeNat n.natAbs, by simp [intChars, hn], Or.inl rfl, ?_⟩
    intro x hx
    rcases List.mem_cons.mp hx with hx | hx
    · exact Or.inr hx
    · exact Or.inl (writeNat_digits _ x hx)
  · cases hw : writeNat n.toNat with
    | nil => exact absurd hw (writeNat_ne_nil _)
    | cons c l =>
      have hall : ∀ x ∈ c :: l, x.isDigit = true := by
        intro x hx
        exact writeNat_digits n.toNat x (by rw [hw]; exact hx)
      refine ⟨c, l, by simp [intChars, hn, hw], Or.inr (hall c (List.mem_cons_self c l)), ?_⟩
      intro x hx
      exact Or.inl (hall x hx)

theorem readInt_intChars (n : Int) (rest : List Char)
    (h : ∀ c l, rest = c :: l → c.isDigit = false) :
    readInt (intChars n ++ rest) = some (n, rest) := by
  by_cases hn : n < 0
  · rw [show intChars n = '-' :: writeNat n.natAbs from by simp [intChars, hn]]
    rw [List.cons_append]
    rw [show readInt ('-' :: (writeNat n.natAbs ++ rest))
        = (readNat (writeNat n.natAbs ++ rest)).map (fun p => (-(p.1 : Int), p.2)) from by
      simp [readInt]]
    rw [readNat_writeNat n.natAbs rest h]
    have hia : -((n.natAbs : Int)) = n := by omega
    simp only [Option.map_some']
    rw [show (-((n.natAbs : Int)), rest) = (n, rest) from by rw [hia]]
  · rw [show intChars n = writeNat n.toNat from by simp [intChars, hn]]
    cases hw : writeNat n.toNat with
    | nil => exact absurd hw (writeNat_ne_nil _)
    | cons c l =>
      have hc : c.isDigit = true := writeNat_digits _ c (by rw [hw]; exact List.mem_cons_self c l)
      have hne : c ≠ '-' := ne_of_pred Char.isDigit hc (by decide)
      rw [List.cons_append]
      rw [show readInt (c :: (l ++ rest))
          = (readNat (c :: (l ++ rest))).map (fun p => ((p.1 : Int), p.2)) from by
        simp [readInt, hne]]
      rw [← List.cons_append, ← hw]
      rw [readNat_writeNat n.toNat rest h]
      have hia : ((n.toNat : Int)) = n := by omega
      simp only [Option.map_some']
      rw [show (((n.toNat : Int)), rest) = (n, rest) from by rw [hia]]

/-! ### String escaping round trip -/

theorem hexVal_hexDigitChar {k : Nat} (h : k < 16) : hexVal (hexDigitChar k) = some k := by
  interval_cases k <;> decide

theorem readStrBody_escChar (c : Char) (fuel : Nat) (tail acc : List Char) :
    readStrBody (fuel + 1) (escChar c ++ tail) acc = readStrBody fuel tail (c :: acc) := by
  by_cases h1 : c = dqChar
  · subst h1
    simp [escChar, readStrBody, dqChar, bsChar]
  by_cases h2 : c = bsChar
  · subst h2
    simp [escChar, readStrBody, dqChar, bsChar]
  by_cases h3 : c = nlChar
  · subst h3
    simp [escChar, readStrBody, dqChar, bsChar, nlChar]
  by_cases h4 : c = Char.ofNat 9
  · subst h4
    simp [escChar, readStrBody, dqChar, bsChar, nlChar]
  by_cases h5 : c = Char.ofNat 13
  · subst h5
    simp [escChar, readStrBody, dqChar, bsChar, nlChar]
  by_cases h6 : c = Char.ofNat 8
  · subst h6
    simp [escChar, readStrBody, dqChar, bsChar, nlChar]
  by_cases h7 : c = Char.ofNat 12
  · subst h7
    simp [escChar, readStrBody, dqChar, bsChar, nlChar]
  by_cases h8 : c.toNat < 32
  · have hdiv : c.toNat / 16 < 16 := by omega
    have hmod : c.toNat % 16 < 16 := by omega
    have h0 : hexVal '0' = some 0 := by decide
    rw [show escChar c ++ tail
        = bsChar :: 'u' :: '0' :: '0' :: hexDigitChar (c.toNat / 16)
          :: hexDigitChar (c.toNat % 16) :: tail from by
      simp [escChar, h1, h2, h3, h4, h5, h6, h7, h8]]
    simp only [readStrBody, dqChar, bsChar, nlChar, h0,
      hexVal_hexDigitChar hdiv, hexVal_hexDigitChar hmod]
    norm_num
    rw [show (c.toNat / 16) * 16 + c.toNat % 16 = c.toNat from by omega, Char.ofNat_toNat]
    simp
  · rw [show escChar c = [c] from by simp [escChar, h1, h2, h3, h4, h5, h6, h7, h8]]
    rw [show [c] ++ tail = c :: tail from by simp]
    simp [readStrBody, h1, h2]

theorem readStrBody_escList : ∀ (l : List Char) (fuel : Nat) (acc rest : List Char),
    l.length + 1 ≤ fuel →
    readStrBody fuel (escList l ++ dqChar :: rest) acc
      = some (String.mk (acc.reverse ++ l), rest) := by
  intro l
  induction l with
  | nil =>
    intro fuel acc rest hf
    cases fuel with
    | zero => omega
    | succ f => simp [escList, readStrBody]
  | cons c l ih =>
    intro fuel acc rest hf
    cases fuel with
    | zero => simp at hf
    | succ f =>
      rw [show escList (c :: l) = escChar c ++ escList l from by simp [escList]]
      rw [List.append_assoc, readStrBody_escChar c f _ acc]
      rw [ih f (c :: acc) rest (by simp at hf ⊢; omega)]
      simp

theorem escChar_length_pos (c : Char) : 1 ≤ (escChar c).length := by
  unfold escChar
  split_ifs <;> simp

theorem escList_length_ge (l : List Char) : l.length ≤ (escList l).length := by
  induction l with
  | nil => simp [escList]
  | cons c l ih =>
    rw [show escList (c :: l) = escChar c ++ escList l from by simp [escList]]
    simp only [List.length_append, List.length_cons]
    have := escChar_length_pos c
    omega

theorem readStr_escList (l rest : List Char) :
    readStr (escList l ++ dqChar :: rest) = some (String.mk l, rest) := by
  unfold readStr
  rw [readStrBody_escList l _ [] rest ?hfuel]
  · simp
  case hfuel =>
    simp only [List.length_append, List.length_cons]
    have := escList_length_ge l
    omega

theorem readSqBody_sqEsc : ∀ (l : List Char) (fuel : Nat) (acc rest : List Char),
    l.length + 1 ≤ fuel →
    (∀ c t, rest = c :: t → c ≠ sqChar) →
    readSqBody fuel (sqEsc l ++ sqChar :: rest) acc
      = some (String.mk (acc.reverse ++ l), rest) := by
  intro l
  induction l with
  | nil =>
    intro fuel acc rest hf hrest
    cases fuel with
    | zero => omega
    | succ f =>
      cases rest with
      | nil => simp [sqEsc, readSqBody]
      | cons c t =>
        have hc : c ≠ sqChar := hrest c t rfl
        simp [sqEsc, readSqBody, hc]
  | cons c l ih =>
    intro fuel acc rest hf hrest
    cases fuel with
    | zero => simp at hf
    | succ f =>
      rw [show sqEsc (c :: l) = (if c = sqChar then [sqChar, sqChar] else [c]) ++ sqEsc l from by
        simp [sqEsc]]
      by_cases hc : c = sqChar
      · subst hc
        rw [if_pos rfl, List.append_assoc]
        rw [show readSqBody (f + 1) ([sqChar, sqChar] ++ (sqEsc l ++ sqChar :: rest)) acc
            = readSqBody f (sqEsc l ++ sqChar :: rest) (sqChar :: acc) from by
          simp [readSqBody]]
        rw [ih f (sqChar :: acc) rest (by simp at hf ⊢; omega) hrest]
        simp
      · rw [if_neg hc, List.append_assoc]
        rw [show readSqBody (f + 1) ([c] ++ (sqEsc l ++ sqChar :: rest)) acc
            = readSqBody f (sqEsc l ++ sqChar :: rest) (c :: acc) from by
          simp [readSqBody, hc]]
        rw [ih f (c :: acc) rest (by simp at hf ⊢; omega) hrest]
        simp

theorem sqEsc_length_ge (l : List Char) : l.length ≤ (sqEsc l).length := by
  induction l with
  | nil => simp [sqEsc]
  | cons c l ih =>
    rw [show sqEsc (c :: l) = (if c = sqChar then [sqChar, sqChar] else [c]) ++ sqEsc l from by
      simp [sqEsc]]
    simp only [List.length_append, List.length_cons]
    split_ifs <;> simp <;> omega

theorem readSq_sqEsc (l rest : List Char)
    (hrest : ∀ c t, rest = c :: t → c ≠ sqChar) :
    readSq (sqEsc l ++ sqChar :: rest) = some (String.mk l, rest) := by
  unfold readSq
  rw [readSqBody_sqEsc l _ [] rest ?hfuel hrest]
  · simp
  case hfuel =>
    simp only [List.length_append, List.length_cons]
    have := sqEsc_length_ge l
    omega

/-! ### Whitespace and prefix helpers -/

theorem takeWhile_append_stop (p : Char → Bool) :
    ∀ (l : List Char) (c : Char) (r : List Char), (∀ x ∈ l, p x = true) → p c = false →
      (l ++ c :: r).takeWhile p = l ∧ (l ++ c :: r).dropWhile p = c :: r := by
  intro l
  induction l with
  | nil =>
    intro c r _ hc
    simp [List.takeWhile_cons, List.dropWhile_cons, hc]
  | cons a l ih =>
    intro c r hl hc
    have ha : p a = true := hl a (List.mem_cons_self a l)
    have hrec := ih c r (fun x hx => hl x (List.mem_cons_of_mem a hx)) hc
    simp [List.takeWhile_cons, List.dropWhile_cons, ha, hrec.1, hrec.2]

theorem skipWs_cons_not_ws {c : Char} (l : List Char) (h : isWsChar c = false) :
    skipWs (c :: l) = c :: l := by
  simp [skipWs, h]

theorem skipWs_spaces (n : Nat) (l : List Char) : skipWs (spaces n ++ l) = skipWs l := by
  induction n with
  | zero => simp [spaces]
  | succ n ih =>
    rw [show spaces (n + 1) = ' ' :: spaces n from by simp [spaces, List.replicate]]
    simp only [List.cons_append]
    rw [show skipWs (' ' :: (spaces n ++ l)) = skipWs (spaces n ++ l) from by
      simp [skipWs, isWsChar]]
    exact ih

theorem skipWs_nl (l : List Char) : skipWs (nlChar :: l) = skipWs l := by
  simp [skipWs, isWsChar]

theorem isPrefixOf_append_self : ∀ (l r : List Char), l.isPrefixOf (l ++ r) = true := by
  intro l
  induction l with
  | nil => intro r; simp [List.isPrefixOf]
  | cons a l ih => intro r; simp [List.isPrefixOf, ih]

/-! ### JSON scalars -/

theorem not_ws_of_digit {c : Char} (h : c.isDigit = true) : isWsChar c = false := by
  have h1 : c ≠ ' ' := ne_of_pred Char.isDigit h (by decide)
  have h2 : c ≠ nlChar := ne_of_pred Char.isDigit h (by decide)
  have h3 : c ≠ Char.ofNat 9 := ne_of_pred Char.isDigit h (by decide)
  have h4 : c ≠ Char.ofNat 13 := ne_of_pred Char.isDigit h (by decide)
  simp [isWsChar, h1, h2, h3, h4]

theorem dumpJsonVal_scalar (v : Value) (hv : isScalar v = true) (d : Nat) :
    dumpJsonVal v d = .ok (jsonScalarChars v) := by
  cases v with
  | null => rfl
  | bool b => rfl
  | int n => rfl
  | str s => rfl
  | list items => simp [isScalar] at hv
  | dict entries => simp [isScalar] at hv
  | pyobj r => simp [isScalar] at hv

theorem jsonScalarChars_form (v : Value) (hv : isScalar v = true) :
    ∃ c l, jsonScalarChars v = c :: l ∧ isWsChar c = false
      ∧ c ≠ ']' ∧ c ≠ rbChar := by
  cases v with
  | null =>
    refine ⟨'n', "ull".data, rfl, ?_, ?_, ?_⟩ <;> decide
  | bool b =>
    cases b with
    | false => refine ⟨'f', "alse".data, rfl, ?_, ?_, ?_⟩ <;> decide
    | true => refine ⟨'t', "rue".data, rfl, ?_, ?_, ?_⟩ <;> decide
  | int n =>
    obtain ⟨c, l, hform, hc, _⟩ := intChars_form n
    rcases hc with hc | hc
    · subst hc
      exact ⟨'-', l, hform, by decide, by decide, by decide⟩
    · exact ⟨c, l, hform, not_ws_of_digit hc,
        ne_of_pred Char.isDigit hc (by decide), ne_of_pred Char.isDigit hc (by decide)⟩
  | str s => refine ⟨dqChar, escList s.data ++ [dqChar], rfl, ?_, ?_, ?_⟩ <;> decide
  | list items => simp [isScalar] at hv
  | dict entries => simp [isScalar] at hv
  | pyobj r => simp [isScalar] at hv

theorem readJsonScalar_dump (v : Value) (hv : isScalar v = true) (rest : List Char)
    (hrest : ∀ c l, rest = c :: l → c.isDigit = false) :
    readJsonScalar (jsonScalarChars v ++ rest) = some (v, rest) := by
  cases v with
  | null =>
    rw [show jsonScalarChars .null ++ rest = 'n' :: 'u' :: 'l' :: 'l' :: rest from rfl]
    have hd : ('n' : Char).isDigit = false := by decide
    simp [readJsonScalar, dqChar, hd, List.isPrefixOf]
  | bool b =>
    cases b with
    | true =>
      rw [show jsonScalarChars (.bool true) ++ rest = 't' :: 'r' :: 'u' :: 'e' :: rest from rfl]
      have hd : ('t' : Char).isDigit = false := by decide
      simp [readJsonScalar, dqChar, hd, List.isPrefixOf]
    | false =>
      rw [show jsonScalarChars (.bool false) ++ rest
          = 'f' :: 'a' :: 'l' :: 's' :: 'e' :: rest from rfl]
      have hd : ('f' : Char).isDigit = false := by decide
      simp [readJsonScalar, dqChar, hd, List.isPrefixOf]
  | int n =>
    obtain ⟨c, l, hform, hc, _⟩ := intChars_form n
    have hcond : c = '-' ∨ c.isDigit = true := hc
    have hcdq : c ≠ dqChar := by
      rcases hc with hc | hc
      · subst hc; decide
      · exact ne_of_pred Char.isDigit hc (by decide)
    rw [show jsonScalarChars (.int n) = intChars n from rfl, hform, List.cons_append]
    rw [show readJsonScalar (c :: (l ++ rest))
        = (readInt (c :: (l ++ rest))).map (fun p => (.int p.1, p.2)) from by
      simp only [readJsonScalar, if_neg hcdq, if_pos hcond]]
    rw [← List.cons_append, ← hform, readInt_intChars n rest hrest]
    simp
  | str s =>
    rw [show jsonScalarChars (.str s) ++ rest
        = dqChar :: (escList s.data ++ dqChar :: rest) from by
      simp [jsonScalarChars]]
    rw [show readJsonScalar (dqChar :: (escList s.data ++ dqChar :: rest))
        = (readStr (escList s.data ++ dqChar :: rest)).map (fun p => (.str p.1, p.2)) from by
      simp [readJsonScalar]]
    rw [readStr_escList]
    simp
  | list items => simp [isScalar] at hv
  | dict entries => simp [isScalar] at hv
  | pyobj r => simp [isScalar] at hv

/-! ### JSON containers -/

theorem skipWs_space (l : List Char) : skipWs (' ' :: l) = skipWs l := by
  simp [skipWs, isWsChar]

theorem allScalarItems_cons {v : Value} {t : ValueItems}
    (h : allScalarItems (.cons v t) = true) :
    isScalar v = true ∧ allScalarItems t = true := by
  simp [allScalarItems] at h
  exact h

theorem allScalarEntries_cons {k : String} {v : Value} {t : ValueEntries}
    (h : allScalarEntries (.cons k v t) = true) :
    isScalar v = true ∧ allScalarEntries t = true := by
  simp [allScalarEntries] at h
  exact h

theorem dumpJsonItems_emit : ∀ (items : ValueItems), items ≠ .nil →
    allScalarItems items = true →
    dumpJsonItems items 1 = .ok (spaces 2 ++ jsonItemsEmit items) := by
  intro items
  cases items with
  | nil => intro hne _; cases hne rfl
  | cons v t =>
    intro _ hs
    obtain ⟨hv, hst⟩ := allScalarItems_cons hs
    cases t with
    | nil => simp [dumpJsonItems, dumpJsonVal_scalar v hv, jsonItemsEmit]
    | cons v2 t2 =>
      rw [show dumpJsonItems (.cons v (.cons v2 t2)) 1
          = match dumpJsonVal v 1 with
            | .error e => .error e
            | .ok c =>
              match dumpJsonItems (.cons v2 t2) 1 with
              | .error e => .error e
              | .ok rest => .ok (spaces 2 ++ c ++ ',' :: nlChar :: rest) from rfl]
      rw [dumpJsonVal_scalar v hv, dumpJsonItems_emit (.cons v2 t2) (by simp) hst]
      simp [jsonItemsEmit]

theorem dumpJsonEntries_emit : ∀ (entries : ValueEntries), entries ≠ .nil →
    allScalarEntries entries = true →
    dumpJsonEntries entries 1 = .ok (spaces 2 ++ jsonEntriesEmit entries) := by
  intro entries
  cases entries with
  | nil => intro hne _; cases hne rfl
  | cons k v t =>
    intro _ hs
    obtain ⟨hv, hst⟩ := allScalarEntries_cons hs
    cases t with
    | nil => simp [dumpJsonEntries, dumpJsonVal_scalar v hv, jsonEntriesEmit]
    | cons k2 v2 t2 =>
      rw [show dumpJsonEntries (.cons k v (.cons k2 v2 t2)) 1
          = match dumpJsonVal v 1 with
            | .error e => .error e
            | .ok c =>
              match dumpJsonEntries (.cons k2 v2 t2) 1 with
              | .error e => .error e
              | .ok rest =>
                .ok (spaces 2 ++ dqChar :: escList k.data ++ dqChar :: ':' :: ' ' :: c
                  ++ ',' :: nlChar :: rest) from rfl]
      rw [dumpJsonVal_scalar v hv, dumpJsonEntries_emit (.cons k2 v2 t2) (by simp) hst]
      simp [jsonEntriesEmit]

theorem jsonItemsEmit_form (v : Value) (t : ValueItems) (hv : isScalar v = true) :
    ∃ c l, jsonItemsEmit (.cons v t) = c :: l ∧ isWsChar c = false
      ∧ c ≠ ']' ∧ c ≠ rbChar := by
  obtain ⟨c, l0, hform, hws, h1, h2⟩ := jsonScalarChars_form v hv
  cases t with
  | nil => exact ⟨c, l0, by simp [jsonItemsEmit, hform], hws, h1, h2⟩
  | cons v2 t2 =>
    exact ⟨c, l0 ++ ',' :: nlChar :: spaces 2 ++ jsonItemsEmit (.cons v2 t2),
      by simp [jsonItemsEmit, hform], hws, h1, h2⟩

theorem itemsCount_le_emit : ∀ (items : ValueItems), allScalarItems items = true →
    itemsCount items ≤ (jsonItemsEmit items).length := by
  intro items
  cases items with
  | nil => intro _; simp [itemsCount, jsonItemsEmit]
  | cons v t =>
    intro hs
    obtain ⟨hv, hst⟩ := allScalarItems_cons hs
    obtain ⟨c, l0, hform, _, _, _⟩ := jsonScalarChars_form v hv
    cases t with
    | nil => simp [itemsCount, jsonItemsEmit, hform]
    | cons v2 t2 =>
      have := itemsCount_le_emit (.cons v2 t2) hst
      simp only [itemsCount, jsonItemsEmit, hform, List.length_append, List.length_cons] at *
      omega

theorem readJsonItemsLoop_emit : ∀ (items : ValueItems), items ≠ .nil →
    allScalarItems items = true →
    ∀ (fuel : Nat), itemsCount items ≤ fuel → ∀ (suffix : List Char),
    readJsonItemsLoop fuel (jsonItemsEmit items ++ nlChar :: ']' :: suffix)
      = some (items, suffix) := by
  intro items
  cases items with
  | nil => intro hne; cases hne rfl
  | cons v t =>
    intro _ hs fuel hfuel suffix
    obtain ⟨hv, hst⟩ := allScalarItems_cons hs
    cases fuel with
    | zero => simp [itemsCount] at hfuel
    | succ f =>
      cases t with
      | nil =>
        rw [show jsonItemsEmit (.cons v .nil) = jsonScalarChars v from rfl]
        simp only [readJsonItemsLoop]
        rw [readJsonScalar_dump v hv (nlChar :: ']' :: suffix)
          (by intro c l h; injection h with h1 _; rw [← h1]; decide)]
        simp only []
        rw [skipWs_nl, skipWs_cons_not_ws _ (by decide)]
        simp
      | cons v2 t2 =>
        obtain ⟨hv2, hst2⟩ := allScalarItems_cons hst
        rw [show jsonItemsEmit (.cons v (.cons v2 t2))
            = jsonScalarChars v ++ ',' :: nlChar :: spaces 2
              ++ jsonItemsEmit (.cons v2 t2) from rfl]
        simp only [List.append_assoc, List.cons_append]
        simp only [readJsonItemsLoop]
        rw [readJsonScalar_dump v hv _
          (by intro c l h; injection h with h1 _; rw [← h1]; decide)]
        simp only []
        rw [skipWs_cons_not_ws _ (by decide)]
        simp only [if_true]
        rw [skipWs_nl, skipWs_spaces]
        obtain ⟨c2, l2, hform2, hws2, _, _⟩ := jsonItemsEmit_form v2 t2 hv2
        rw [show jsonItemsEmit (.cons v2 t2) ++ nlChar :: ']' :: suffix
            = c2 :: (l2 ++ nlChar :: ']' :: suffix) from by rw [hform2]; simp]
        rw [skipWs_cons_not_ws _ hws2]
        rw [show c2 :: (l2 ++ nlChar :: ']' :: suffix)
            = jsonItemsEmit (.cons v2 t2) ++ nlChar :: ']' :: suffix from by
          rw [hform2]; simp]
        rw [readJsonItemsLoop_emit (.cons v2 t2) (by simp) hst f
          (by simp [itemsCount] at hfuel ⊢; omega) suffix]

theorem jsonEntriesEmit_form (k : String) (v : Value) (t : ValueEntries) :
    ∃ l, jsonEntriesEmit (.cons k v t) = dqChar :: l := by
  cases t with
  | nil => exact ⟨_, rfl⟩
  | cons k2 v2 t2 => exact ⟨_, rfl⟩

theorem entriesCount_le_emit : ∀ (entries : ValueEntries),
    entriesCount entries ≤ (jsonEntriesEmit entries).length := by
  intro entries
  cases entries with
  | nil => simp [entriesCount, jsonEntriesEmit]
  | cons k v t =>
    cases t with
    | nil => simp [entriesCount, jsonEntriesEmit]
    | cons k2 v2 t2 =>
      have := entriesCount_le_emit (.cons k2 v2 t2)
      simp only [entriesCount, jsonEntriesEmit, List.length_append, List.length_cons] at *
      omega

theorem readJsonEntriesLoop_emit : ∀ (entries : ValueEntries), entries ≠ .nil →
    allScalarEntries entries = true →
    ∀ (fuel : Nat), entriesCount entries ≤ fuel → ∀ (suffix : List Char),
    readJsonEntriesLoop fuel (jsonEntriesEmit entries ++ nlChar :: rbChar :: suffix)
      = some (entries, suffix) := by
  intro entries
  cases entries with
  | nil => intro hne; cases hne rfl
  | cons k v t =>
    intro _ hs fuel hfuel suffix
    obtain ⟨hv, hst⟩ := allScalarEntries_cons hs
    have hrb : ¬(rbChar = ',') := by decide
    have hrb2 : rbChar = rbChar := rfl
    cases fuel with
    | zero => simp [entriesCount] at hfuel
    | succ f =>
      cases t with
      | nil =>
        rw [show jsonEntriesEmit (.cons k v .nil)
            = dqChar :: escList k.data ++ dqChar :: ':' :: ' ' :: jsonScalarChars v from rfl]
        simp only [List.append_assoc, List.cons_append]
        simp only [readJsonEntriesLoop, if_true]
        rw [readStr_escList k.data (':' :: ' ' :: (jsonScalarChars v ++ nlChar :: rbChar :: suffix))]
        simp only []
        rw [skipWs_cons_not_ws _ (by decide)]
        simp only []
        simp only [if_true]
        rw [skipWs_space]
        obtain ⟨c0, l0, hform0, hws0, _, _⟩ := jsonScalarChars_form v hv
        rw [show jsonScalarChars v ++ nlChar :: rbChar :: suffix
            = c0 :: (l0 ++ nlChar :: rbChar :: suffix) from by rw [hform0]; simp]
        rw [skipWs_cons_not_ws _ hws0]
        rw [show c0 :: (l0 ++ nlChar :: rbChar :: suffix)
            = jsonScalarChars v ++ nlChar :: rbChar :: suffix from by rw [hform0]; simp]
        rw [readJsonScalar_dump v hv (nlChar :: rbChar :: suffix)
          (by intro c l h; injection h with h1 _; rw [← h1]; decide)]
        simp only []
        rw [skipWs_nl, skipWs_cons_not_ws _ (by decide)]
        simp only []
        simp [hrb]
      | cons k2 v2 t2 =>
        obtain ⟨hv2, hst2⟩ := allScalarEntries_cons hst
        rw [show jsonEntriesEmit (.cons k v (.cons k2 v2 t2))
            = dqChar :: escList k.data ++ dqChar :: ':' :: ' ' :: jsonScalarChars v
              ++ ',' :: nlChar :: spaces 2 ++ jsonEntriesEmit (.cons k2 v2 t2) from rfl]
        simp only [List.append_assoc, List.cons_append]
        simp only [readJsonEntriesLoop, if_true]
        rw [readStr_escList k.data _]
        simp only []
        rw [skipWs_cons_not_ws _ (by decide)]
        simp only []
        simp only [if_true]
        rw [skipWs_space]
        obtain ⟨c0, l0, hform0, hws0, _, _⟩ := jsonScalarChars_form v hv
        rw [show jsonScalarChars v
              ++ ',' :: nlChar :: (spaces 2 ++ (jsonEntriesEmit (.cons k2 v2 t2)
                ++ nlChar :: rbChar :: suffix))
            = c0 :: (l0 ++ ',' :: nlChar :: (spaces 2 ++ (jsonEntriesEmit (.cons k2 v2 t2)
                ++ nlChar :: rbChar :: suffix))) from by rw [hform0]; simp]
        rw [skipWs_cons_not_ws _ hws0]
        rw [show c0 :: (l0 ++ ',' :: nlChar :: (spaces 2 ++ (jsonEntriesEmit (.cons k2 v2 t2)
                ++ nlChar :: rbChar :: suffix)))
            = jsonScalarChars v
              ++ ',' :: nlChar :: (spaces 2 ++ (jsonEntriesEmit (.cons k2 v2 t2)
                ++ nlChar :: rbChar :: suffix)) from by rw [hform0]; simp]
        rw [readJsonScalar_dump v hv _
          (by intro c l h; injection h with h1 _; rw [← h1]; decide)]
        simp only []
        rw [skipWs_cons_not_ws _ (by decide)]
        simp only [if_true]
        rw [skipWs_nl, skipWs_spaces]
        obtain ⟨l2, hform2⟩ := jsonEntriesEmit_form k2 v2 t2
        rw [show jsonEntriesEmit (.cons k2 v2 t2) ++ nlChar :: rbChar :: suffix
            = dqChar :: (l2 ++ nlChar :: rbChar :: suffix) from by rw [hform2]; simp]
        rw [skipWs_cons_not_ws _ (by decide)]
        rw [show dqChar :: (l2 ++ nlChar :: rbChar :: suffix)
            = jsonEntriesEmit (.cons k2 v2 t2) ++ nlChar :: rbChar :: suffix from by
          rw [hform2]; simp]
        rw [readJsonEntriesLoop_emit (.cons k2 v2 t2) (by simp) hst f
          (by simp [entriesCount] at hfuel ⊢; omega) suffix]

theorem parseJsonFlat_dump (p : Value) (hp : flatPayload p = true) :
    ∃ body, dumpJsonVal p 0 = .ok body ∧ parseJsonFlat (String.mk body) = some p := by
  cases p with
  | list items =>
    cases items with
    | nil => exact ⟨_, rfl, rfl⟩
    | cons v t =>
      have hs : allScalarItems (.cons v t) = true := hp
      obtain ⟨hv, _⟩ := allScalarItems_cons hs
      refine ⟨'[' :: nlChar :: (spaces 2 ++ jsonItemsEmit (.cons v t))
        ++ nlChar :: spaces 0 ++ [']'], ?_, ?_⟩
      · rw [show dumpJsonVal (.list (.cons v t)) 0
            = match dumpJsonItems (.cons v t) 1 with
              | .error e => .error e
              | .ok body => .ok ('[' :: nlChar :: body ++ nlChar :: spaces 0 ++ [']'])
            from rfl]
        rw [dumpJsonItems_emit (.cons v t) (by simp) hs]
      · rw [show ('[' :: nlChar :: (spaces 2 ++ jsonItemsEmit (.cons v t))
              ++ nlChar :: spaces 0 ++ [']'])
            = '[' :: nlChar :: (spaces 2 ++ (jsonItemsEmit (.cons v t)
                ++ nlChar :: ']' :: [])) from by simp [spaces]]
        simp only [parseJsonFlat]
        rw [skipWs_cons_not_ws _ (by decide)]
        simp only []
        rw [if_neg (by decide : ¬(('[' : Char) = lbChar))]
        simp only [if_true]
        rw [skipWs_nl, skipWs_spaces]
        obtain ⟨c2, l2, hform2, hws2, hne2, _⟩ := jsonItemsEmit_form v t hv
        rw [show jsonItemsEmit (.cons v t) ++ nlChar :: ']' :: []
            = c2 :: (l2 ++ nlChar :: ']' :: []) from by rw [hform2]; simp]
        rw [skipWs_cons_not_ws _ hws2]
        simp only []
        rw [if_neg hne2]
        have hfuel : itemsCount (.cons v t) ≤ (l2 ++ nlChar :: ']' :: []).length + 2 := by
          have h1 := itemsCount_le_emit (.cons v t) hs
          have h2 : (jsonItemsEmit (.cons v t)).length = l2.length + 1 := by
            rw [hform2]; simp
          simp only [List.length_append, List.length_cons] at *
          omega
        rw [show c2 :: (l2 ++ nlChar :: ']' :: [])
            = jsonItemsEmit (.cons v t) ++ nlChar :: ']' :: [] from by rw [hform2]; simp]
        rw [readJsonItemsLoop_emit (.cons v t) (by simp) hs _ hfuel []]
        simp [skipWs]
  | dict entries =>
    cases entries with
    | nil => exact ⟨_, rfl, rfl⟩
    | cons k v t =>
      have hs : allScalarEntries (.cons k v t) = true := hp
      obtain ⟨hv, _⟩ := allScalarEntries_cons hs
      refine ⟨lbChar :: nlChar :: (spaces 2 ++ jsonEntriesEmit (.cons k v t))
        ++ nlChar :: spaces 0 ++ [rbChar], ?_, ?_⟩
      · rw [show dumpJsonVal (.dict (.cons k v t)) 0
            = match dumpJsonEntries (.cons k v t) 1 with
              | .error e => .error e
              | .ok body => .ok (lbChar :: nlChar :: body ++ nlChar :: spaces 0 ++ [rbChar])
            from rfl]
        rw [dumpJsonEntries_emit (.cons k v t) (by simp) hs]
      · rw [show (lbChar :: nlChar :: (spaces 2 ++ jsonEntriesEmit (.cons k v t))
              ++ nlChar :: spaces 0 ++ [rbChar])
            = lbChar :: nlChar :: (spaces 2 ++ (jsonEntriesEmit (.cons k v t)
                ++ nlChar :: rbChar :: [])) from by simp [spaces]]
        simp only [parseJsonFlat]
        rw [skipWs_cons_not_ws _ (by decide)]
        simp only [if_true]
        rw [skipWs_nl, skipWs_spaces]
        obtain ⟨l2, hform2⟩ := jsonEntriesEmit_form k v t
        rw [show jsonEntriesEmit (.cons k v t) ++ nlChar :: rbChar :: []
            = dqChar :: (l2 ++ nlChar :: rbChar :: []) from by rw [hform2]; simp]
        rw [skipWs_cons_not_ws _ (by decide)]
        simp only []
        rw [if_neg (by decide : ¬(dqChar = rbChar))]
        have hfuel : entriesCount (.cons k v t) ≤ (l2 ++ nlChar :: rbChar :: []).length + 2 := by
          have h1 := entriesCount_le_emit (.cons k v t)
          have h2 : (jsonEntriesEmit (.cons k v t)).length = l2.length + 1 := by
            rw [hform2]; simp
          simp only [List.length_append, List.length_cons] at *
          omega
        rw [show dqChar :: (l2 ++ nlChar :: rbChar :: [])
            = jsonEntriesEmit (.cons k v t) ++ nlChar :: rbChar :: [] from by rw [hform2]; simp]
        rw [readJsonEntriesLoop_emit (.cons k v t) (by simp) hs _ hfuel []]
        simp [skipWs]
  | null => simp [flatPayload] at hp
  | bool b => simp [flatPayload] at hp
  | int n => simp [flatPayload] at hp
  | str sv => simp [flatPayload] at hp
  | pyobj r => simp [flatPayload] at hp

/-! ### YAML scalars -/

theorem readInt_none_of_alpha (c : Char) (cs : List Char) (h : c.isAlpha = true) :
    readInt (c :: cs) = none := by
  have hne : c ≠ '-' := ne_of_pred Char.isAlpha h (by decide)
  have hnd : c.isDigit = false := alpha_not_digit h
  simp [readInt, readNat, hne, hnd]

theorem resolvePlain_intChars (n : Int) : resolvePlain (intChars n) = some (.int n) := by
  obtain ⟨c, l, hform, _, _⟩ := intChars_form n
  rw [hform]
  simp only [resolvePlain]
  rw [show c :: l = intChars n ++ [] from by rw [hform]; simp]
  rw [readInt_intChars n [] (by intro c2 l2 h; cases h)]

theorem resolvePlain_plainSafe (s : String) (h : yamlPlainSafe s = true) :
    resolvePlain s.data = some (.str s) := by
  cases hd : s.data with
  | nil => rw [yamlPlainSafe, hd] at h; cases h
  | cons c cs =>
    rw [yamlPlainSafe, hd] at h
    simp only [Bool.and_eq_true, Bool.not_eq_true'] at h
    obtain ⟨⟨halpha, hallnum⟩, hres⟩ := h
    simp only [resolvePlain]
    rw [readInt_none_of_alpha c cs halpha]
    have hnull : ¬(lowerChars (c :: cs) = "null".data ∨ (c :: cs) = ['~']) := by
      rintro (he | he)
      · rw [he] at hres
        rw [show reservedLows.contains "null".data = true from by decide] at hres
        cases hres
      · have : c = '~' := by injection he
        rw [this] at halpha
        cases halpha
    have htrue : ¬(lowerChars (c :: cs) = "true".data ∨ lowerChars (c :: cs) = "yes".data
        ∨ lowerChars (c :: cs) = "on".data) := by
      rintro (he | he | he) <;> rw [he] at hres <;>
        first
        | (rw [show reservedLows.contains "true".data = true from by decide] at hres
           cases hres)
        | (rw [show reservedLows.contains "yes".data = true from by decide] at hres
           cases hres)
        | (rw [show reservedLows.contains "on".data = true from by decide] at hres
           cases hres)
    have hfalse : ¬(lowerChars (c :: cs) = "false".data ∨ lowerChars (c :: cs) = "no".data
        ∨ lowerChars (c :: cs) = "off".data) := by
      rintro (he | he | he) <;> rw [he] at hres <;>
        first
        | (rw [show reservedLows.contains "false".data = true from by decide] at hres
           cases hres)
        | (rw [show reservedLows.contains "no".data = true from by decide] at hres
           cases hres)
        | (rw [show reservedLows.contains "off".data = true from by decide] at hres
           cases hres)
    rw [if_neg hnull, if_neg htrue, if_neg hfalse]
    rw [show String.mk (c :: cs) = s from by rw [← hd]]

theorem bne_true_of_ne {a b : Char} (h : a ≠ b) : (a != b) = true := by
  simp [bne_iff_ne]
  exact h

theorem readYamlScalarNl_dump (v : Value) (hv : isScalar v = true) (tail : List Char) :
    readYamlScalarNl (yamlScalarChars v ++ nlChar :: tail) = some (v, tail) := by
  cases v with
  | null =>
    rw [show yamlScalarChars .null ++ nlChar :: tail
        = 'n' :: 'u' :: 'l' :: 'l' :: nlChar :: tail from rfl]
    simp only [readYamlScalarNl]
    rw [if_neg (by decide : ¬(('n' : Char) = sqChar)),
      if_neg (by decide : ¬(('n' : Char) = dqChar))]
    rw [show ('n' :: 'u' :: 'l' :: 'l' :: nlChar :: tail)
        = ['n', 'u', 'l', 'l'] ++ nlChar :: tail from rfl]
    rw [(takeWhile_append_stop _ ['n', 'u', 'l', 'l'] nlChar tail (by decide) (by decide)).1,
      (takeWhile_append_stop _ ['n', 'u', 'l', 'l'] nlChar tail (by decide) (by decide)).2]
    rw [show resolvePlain ['n', 'u', 'l', 'l'] = some .null from rfl]
    simp
  | bool b =>
    cases b with
    | true =>
      rw [show yamlScalarChars (.bool true) ++ nlChar :: tail
          = 't' :: 'r' :: 'u' :: 'e' :: nlChar :: tail from rfl]
      simp only [readYamlScalarNl]
      rw [if_neg (by decide : ¬(('t' : Char) = sqChar)),
        if_neg (by decide : ¬(('t' : Char) = dqChar))]
      rw [show ('t' :: 'r' :: 'u' :: 'e' :: nlChar :: tail)
          = ['t', 'r', 'u', 'e'] ++ nlChar :: tail from rfl]
      rw [(takeWhile_append_stop _ ['t', 'r', 'u', 'e'] nlChar tail (by decide) (by decide)).1,
        (takeWhile_append_stop _ ['t', 'r', 'u', 'e'] nlChar tail (by decide) (by decide)).2]
      rw [show resolvePlain ['t', 'r', 'u', 'e'] = some (.bool true) from rfl]
      simp
    | false =>
      rw [show yamlScalarChars (.bool false) ++ nlChar :: tail
          = 'f' :: 'a' :: 'l' :: 's' :: 'e' :: nlChar :: tail from rfl]
      simp only [readYamlScalarNl]
      rw [if_neg (by decide : ¬(('f' : Char) = sqChar)),
        if_neg (by decide : ¬(('f' : Char) = dqChar))]
      rw [show ('f' :: 'a' :: 'l' :: 's' :: 'e' :: nlChar :: tail)
          = ['f', 'a', 'l', 's', 'e'] ++ nlChar :: tail from rfl]
      rw [(takeWhile_append_stop _ ['f', 'a', 'l', 's', 'e'] nlChar tail
          (by decide) (by decide)).1,
        (takeWhile_append_stop _ ['f', 'a', 'l', 's', 'e'] nlChar tail
          (by decide) (by decide)).2]
      rw [show resolvePlain ['f', 'a', 'l', 's', 'e'] = some (.bool false) from rfl]
      simp
  | int n =>
    obtain ⟨c, l, hform, hc, hall⟩ := intChars_form n
    have hcsq : ¬(c = sqChar) := by
      rcases hc with hc | hc
      · rw [hc]; decide
      · exact ne_of_pred Char.isDigit hc (by decide)
    have hcdq : ¬(c = dqChar) := by
      rcases hc with hc | hc
      · rw [hc]; decide
      · exact ne_of_pred Char.isDigit hc (by decide)
    rw [show yamlScalarChars (.int n) = intChars n from rfl, hform, List.cons_append]
    simp only [readYamlScalarNl]
    rw [if_neg hcsq, if_neg hcdq]
    rw [← List.cons_append, ← hform]
    have hnn : ∀ x ∈ intChars n, (x != nlChar) = true := by
      intro x hx
      rw [hform] at hx
      rcases hall x hx with hd | hd
      · exact bne_true_of_ne (ne_of_pred Char.isDigit hd (by decide))
      · rw [hd]; decide
    rw [(takeWhile_append_stop _ (intChars n) nlChar tail hnn (by decide)).1,
      (takeWhile_append_stop _ (intChars n) nlChar tail hnn (by decide)).2]
    rw [resolvePlain_intChars n]
    simp
  | str sv =>
    by_cases hps : yamlPlainSafe sv = true
    · rw [show yamlScalarChars (.str sv) = sv.data from by simp [yamlScalarChars, hps]]
      cases hd : sv.data with
      | nil => rw [yamlPlainSafe, hd] at hps; cases hps
      | cons c cs =>
        have hfacts := hps
        rw [yamlPlainSafe, hd] at hfacts
        simp only [Bool.and_eq_true, Bool.not_eq_true'] at hfacts
        obtain ⟨⟨halpha, hallnum⟩, _⟩ := hfacts
        rw [List.cons_append]
        simp only [readYamlScalarNl]
        rw [if_neg (ne_of_pred Char.isAlpha halpha (by decide) :  ¬(c = sqChar)),
          if_neg (ne_of_pred Char.isAlpha halpha (by decide) : ¬(c = dqChar))]
        rw [← List.cons_append, ← hd]
        have hnn : ∀ x ∈ sv.data, (x != nlChar) = true := by
          intro x hx
          rw [hd] at hx
          have := List.all_eq_true.mp hallnum x hx
          exact bne_true_of_ne (ne_of_pred Char.isAlphanum this (by decide))
        rw [(takeWhile_append_stop _ sv.data nlChar tail hnn (by decide)).1,
          (takeWhile_append_stop _ sv.data nlChar tail hnn (by decide)).2]
        rw [resolvePlain_plainSafe sv hps]
        simp
    · by_cases hctl : sv.data.all (fun c => 32 ≤ c.toNat) = true
      · rw [show yamlScalarChars (.str sv)
            = sqChar :: sqEsc sv.data ++ [sqChar] from by simp [yamlScalarChars, hps, hctl]]
        rw [show (sqChar :: sqEsc sv.data ++ [sqChar]) ++ nlChar :: tail
            = sqChar :: (sqEsc sv.data ++ sqChar :: (nlChar :: tail)) from by simp]
        simp only [readYamlScalarNl, if_pos rfl]
        rw [readSq_sqEsc sv.data (nlChar :: tail)
          (by intro c2 t2 h2; injection h2 with h2a _; rw [← h2a]; decide)]
        simp
      · rw [show yamlScalarChars (.str sv)
            = dqChar :: escList sv.data ++ [dqChar] from by simp [yamlScalarChars, hps, hctl]]
        rw [show (dqChar :: escList sv.data ++ [dqChar]) ++ nlChar :: tail
            = dqChar :: (escList sv.data ++ dqChar :: (nlChar :: tail)) from by simp]
        simp only [readYamlScalarNl]
        rw [if_neg (by decide : ¬(dqChar = sqChar))]
        simp only [if_true]
        rw [readStr_escList sv.data (nlChar :: tail)]
        simp
  | list items => simp [isScalar] at hv
  | dict entries => simp [isScalar] at hv
  | pyobj r => simp [isScalar] at hv

theorem readYamlKey_dump (k : String) (tail : List Char) :
    readYamlKey (yamlScalarChars (.str k) ++ ':' :: tail) = some (k, ':' :: tail) := by
  by_cases hps : yamlPlainSafe k = true
  · rw [show yamlScalarChars (.str k) = k.data from by simp [yamlScalarChars, hps]]
    cases hd : k.data with
    | nil => rw [yamlPlainSafe, hd] at hps; cases hps
    | cons c cs =>
      have hfacts := hps
      rw [yamlPlainSafe, hd] at hfacts
      simp only [Bool.and_eq_true, Bool.not_eq_true'] at hfacts
      obtain ⟨⟨halpha, hallnum⟩, _⟩ := hfacts
      rw [List.cons_append]
      simp only [readYamlKey]
      rw [if_neg (ne_of_pred Char.isAlpha halpha (by decide) : ¬(c = sqChar)),
        if_neg (ne_of_pred Char.isAlpha halpha (by decide) : ¬(c = dqChar))]
      rw [← List.cons_append, ← hd]
      have hnc : ∀ x ∈ k.data, (x != ':') = true := by
        intro x hx
        rw [hd] at hx
        have := List.all_eq_true.mp hallnum x hx
        exact bne_true_of_ne (ne_of_pred Char.isAlphanum this (by decide))
      rw [(takeWhile_append_stop _ k.data ':' tail hnc (by decide)).1,
        (takeWhile_append_stop _ k.data ':' tail hnc (by decide)).2]
  · by_cases hctl : k.data.all (fun c => 32 ≤ c.toNat) = true
    · rw [show yamlScalarChars (.str k) = sqChar :: sqEsc k.data ++ [sqChar] from by
        simp [yamlScalarChars, hps, hctl]]
      rw [show (sqChar :: sqEsc k.data ++ [sqChar]) ++ ':' :: tail
          = sqChar :: (sqEsc k.data ++ sqChar :: (':' :: tail)) from by simp]
      simp only [readYamlKey, if_true]
      rw [readSq_sqEsc k.data (':' :: tail)
        (by intro c2 t2 h2; injection h2 with h2a _; rw [← h2a]; decide)]
    · rw [show yamlScalarChars (.str k) = dqChar :: escList k.data ++ [dqChar] from by
        simp [yamlScalarChars, hps, hctl]]
      rw [show (dqChar :: escList k.data ++ [dqChar]) ++ ':' :: tail
          = dqChar :: (escList k.data ++ dqChar :: (':' :: tail)) from by simp]
      simp only [readYamlKey]
      rw [if_neg (by decide : ¬(dqChar = sqChar))]
      simp only [if_true]
      rw [readStr_escList k.data (':' :: tail)]

theorem readYamlEntryLine_dump (k : String) (v : Value) (hv : isScalar v = true)
    (tail : List Char) :
    readYamlEntryLine (yamlScalarChars (.str k)
        ++ ':' :: ' ' :: (yamlScalarChars v ++ nlChar :: tail))
      = some (k, v, tail) := by
  simp only [readYamlEntryLine]
  rw [readYamlKey_dump k (' ' :: (yamlScalarChars v ++ nlChar :: tail))]
  simp only []
  rw [if_pos ⟨trivial, trivial⟩]
  rw [readYamlScalarNl_dump v hv tail]

/-! ### YAML containers -/

theorem yamlDumpItems_emit : ∀ (items : ValueItems), allScalarItems items = true →
    yamlDumpItems items 0 = .ok (yamlItemsEmit items) := by
  intro items
  cases items with
  | nil => intro _; rfl
  | cons v t =>
    intro hs
    obtain ⟨hv, hst⟩ := allScalarItems_cons hs
    simp only [yamlDumpItems, hv, if_true]
    rw [yamlDumpItems_emit t hst]
    simp [yamlItemsEmit, spaces]

theorem yamlDumpEntries_emit : ∀ (entries : ValueEntries), allScalarEntries entries = true →
    yamlDumpEntries entries 0 = .ok (yamlEntriesEmit entries) := by
  intro entries
  cases entries with
  | nil => intro _; rfl
  | cons k v t =>
    intro hs
    obtain ⟨hv, hst⟩ := allScalarEntries_cons hs
    simp only [yamlDumpEntries, hv, if_true]
    rw [yamlDumpEntries_emit t hst]
    simp [yamlEntriesEmit, spaces]

theorem yamlStrChars_form (k : String) :
    ∃ c l, yamlScalarChars (.str k) = c :: l ∧ ¬(c = '-') ∧ ¬(c = lbChar) ∧ ¬(c = '[') := by
  by_cases hps : yamlPlainSafe k = true
  · cases hd : k.data with
    | nil => rw [yamlPlainSafe, hd] at hps; cases hps
    | cons c cs =>
      have hfacts := hps
      rw [yamlPlainSafe, hd] at hfacts
      simp only [Bool.and_eq_true, Bool.not_eq_true'] at hfacts
      obtain ⟨⟨halpha, _⟩, _⟩ := hfacts
      refine ⟨c, cs, by simp [yamlScalarChars, hps, hd], ?_, ?_, ?_⟩
      · exact ne_of_pred Char.isAlpha halpha (by decide)
      · exact ne_of_pred Char.isAlpha halpha (by decide)
      · exact ne_of_pred Char.isAlpha halpha (by decide)
  · by_cases hctl : k.data.all (fun c => 32 ≤ c.toNat) = true
    · exact ⟨sqChar, sqEsc k.data ++ [sqChar],
        by simp [yamlScalarChars, hps, hctl], by decide, by decide, by decide⟩
    · exact ⟨dqChar, escList k.data ++ [dqChar],
        by simp [yamlScalarChars, hps, hctl], by decide, by decide, by decide⟩

theorem itemsCount_le_yamlEmit : ∀ (items : ValueItems),
    itemsCount items ≤ (yamlItemsEmit items).length := by
  intro items
  cases items with
  | nil => simp [itemsCount, yamlItemsEmit]
  | cons v t =>
    have := itemsCount_le_yamlEmit t
    simp only [itemsCount, yamlItemsEmit, List.length_append, List.length_cons] at *
    omega

theorem entriesCount_le_yamlEmit : ∀ (entries : ValueEntries),
    entriesCount entries ≤ (yamlEntriesEmit entries).length := by
  intro entries
  cases entries with
  | nil => simp [entriesCount, yamlEntriesEmit]
  | cons k v t =>
    have := entriesCount_le_yamlEmit t
    simp only [entriesCount, yamlEntriesEmit, List.length_append, List.length_cons] at *
    omega

theorem readYamlListLoop_emit : ∀ (items : ValueItems), allScalarItems items = true →
    ∀ (fuel : Nat), itemsCount items ≤ fuel →
    readYamlListLoop fuel (yamlItemsEmit items) = some items := by
  intro items
  cases items with
  | nil =>
    intro _ fuel _
    rw [show yamlItemsEmit .nil = [] from rfl]
    cases fuel <;> rfl
  | cons v t =>
    intro hs fuel hfuel
    obtain ⟨hv, hst⟩ := allScalarItems_cons hs
    cases fuel with
    | zero => simp [itemsCount] at hfuel
    | succ f =>
      rw [show yamlItemsEmit (.cons v t)
          = '-' :: (' ' :: (yamlScalarChars v ++ nlChar :: yamlItemsEmit t)) from by
        simp [yamlItemsEmit]]
      simp only [readYamlListLoop, if_true]
      rw [readYamlScalarNl_dump v hv (yamlItemsEmit t)]
      simp only []
      rw [readYamlListLoop_emit t hst f (by simp [itemsCount] at hfuel ⊢; omega)]

theorem readYamlDictLoop_emit : ∀ (entries : ValueEntries), allScalarEntries entries = true →
    ∀ (fuel : Nat), entriesCount entries ≤ fuel →
    readYamlDictLoop fuel (yamlEntriesEmit entries) = some entries := by
  intro entries
  cases entries with
  | nil =>
    intro _ fuel _
    rw [show yamlEntriesEmit .nil = [] from rfl]
    cases fuel <;> rfl
  | cons k v t =>
    intro hs fuel hfuel
    obtain ⟨hv, hst⟩ := allScalarEntries_cons hs
    cases fuel with
    | zero => simp [entriesCount] at hfuel
    | succ f =>
      obtain ⟨c0, l0, hform0, _, _, _⟩ := yamlStrChars_form k
      rw [show yamlEntriesEmit (.cons k v t)
          = c0 :: (l0 ++ ':' :: ' ' :: (yamlScalarChars v ++ nlChar :: yamlEntriesEmit t))
          from by simp [yamlEntriesEmit, hform0]]
      simp only [readYamlDictLoop]
      rw [show c0 :: (l0 ++ ':' :: ' ' :: (yamlScalarChars v ++ nlChar :: yamlEntriesEmit t))
          = yamlScalarChars (.str k)
            ++ ':' :: ' ' :: (yamlScalarChars v ++ nlChar :: yamlEntriesEmit t) from by
        rw [hform0]; simp]
      rw [readYamlEntryLine_dump k v hv (yamlEntriesEmit t)]
      simp only []
      rw [readYamlDictLoop_emit t hst f (by simp [entriesCount] at hfuel ⊢; omega)]

theorem parseYamlFlat_dump (p : Value) (hp : flatPayload p = true) :
    ∃ body, yamlDumpVal p 0 = .ok body ∧ parseYamlFlat (String.mk body) = some p := by
  cases p with
  | list items =>
    cases items with
    | nil => exact ⟨_, rfl, rfl⟩
    | cons v t =>
      have hs : allScalarItems (.cons v t) = true := hp
      refine ⟨yamlItemsEmit (.cons v t), ?_, ?_⟩
      · rw [show yamlDumpVal (.list (.cons v t)) 0 = yamlDumpItems (.cons v t) 0 from rfl]
        exact yamlDumpItems_emit (.cons v t) hs
      · obtain ⟨hv, hst⟩ := allScalarItems_cons hs
        rw [show yamlItemsEmit (.cons v t)
            = '-' :: (' ' :: (yamlScalarChars v ++ nlChar :: yamlItemsEmit t)) from by
          simp [yamlItemsEmit]]
        simp only [parseYamlFlat]
        rw [if_neg (by decide : ¬(('-' : Char) = lbChar)),
          if_neg (by decide : ¬(('-' : Char) = '['))]
        simp only [if_true]
        have hfuel : itemsCount (.cons v t)
            ≤ (' ' :: (yamlScalarChars v ++ nlChar :: yamlItemsEmit t)).length + 1 := by
          have h1 := itemsCount_le_yamlEmit (.cons v t)
          simp only [yamlItemsEmit, List.length_append, List.length_cons] at *
          omega
        rw [show '-' :: (' ' :: (yamlScalarChars v ++ nlChar :: yamlItemsEmit t))
            = yamlItemsEmit (.cons v t) from by simp [yamlItemsEmit]]
        rw [readYamlListLoop_emit (.cons v t) hs _ hfuel]
  | dict entries =>
    cases entries with
    | nil => exact ⟨_, rfl, rfl⟩
    | cons k v t =>
      have hs : allScalarEntries (.cons k v t) = true := hp
      refine ⟨yamlEntriesEmit (.cons k v t), ?_, ?_⟩
      · rw [show yamlDumpVal (.dict (.cons k v t)) 0 = yamlDumpEntries (.cons k v t) 0 from rfl]
        exact yamlDumpEntries_emit (.cons k v t) hs
      · obtain ⟨hv, hst⟩ := allScalarEntries_cons hs
        obtain ⟨c0, l0, hform0, hc1, hc2, hc3⟩ := yamlStrChars_form k
        rw [show yamlEntriesEmit (.cons k v t)
            = c0 :: (l0 ++ ':' :: ' ' :: (yamlScalarChars v ++ nlChar :: yamlEntriesEmit t))
            from by simp [yamlEntriesEmit, hform0]]
        simp only [parseYamlFlat]
        rw [if_neg hc2, if_neg hc3, if_neg hc1]
        have hfuel : entriesCount (.cons k v t)
            ≤ (l0 ++ ':' :: ' ' :: (yamlScalarChars v ++ nlChar :: yamlEntriesEmit t)).length
              + 1 := by
          have h1 := entriesCount_le_yamlEmit (.cons k v t)
          have h2 : (yamlEntriesEmit (.cons k v t)).length
              = (c0 :: (l0 ++ ':' :: ' '
                :: (yamlScalarChars v ++ nlChar :: yamlEntriesEmit t))).length := by
            rw [show yamlEntriesEmit (.cons k v t)
                = c0 :: (l0 ++ ':' :: ' '
                  :: (yamlScalarChars v ++ nlChar :: yamlEntriesEmit t))
                from by simp [yamlEntriesEmit, hform0]]
          simp only [List.length_append, List.length_cons] at *
          omega
        rw [show c0 :: (l0 ++ ':' :: ' ' :: (yamlScalarChars v ++ nlChar :: yamlEntriesEmit t))
            = yamlEntriesEmit (.cons k v t) from by simp [yamlEntriesEmit, hform0]]
        rw [readYamlDictLoop_emit (.cons k v t) hs _ hfuel]
  | null => simp [flatPayload] at hp
  | bool b => simp [flatPayload] at hp
  | int n => simp [flatPayload] at hp
  | str sv => simp [flatPayload] at hp
  | pyobj r => simp [flatPayload] at hp

/-- C8: for every mapping or sequence of primitives, rendering with format
`"json"` succeeds and yields the 2-space-indented JSON text of the payload,
which parses back to the original payload with mapping insertion order
preserved; rendering with format `"yaml"` succeeds and yields block-style
YAML text without key sorting, which parses back to the original payload. -/
theorem format_output_roundtrip (p : Value) (f : Unit → String)
    (hp : flatPayload p = true) :
    (∃ s, format_output "json" p f = .ok s ∧ parseJsonFlat s = some p)
    ∧ (∃ t, format_output "yaml" p f = .ok t ∧ parseYamlFlat t = some p) := by
  obtain ⟨bj, hbj, hpj⟩ := parseJsonFlat_dump p hp
  obtain ⟨byml, hby, hpy⟩ := parseYamlFlat_dump p hp
  have hne : ¬(("yaml" : String) = "json") := by decide
  constructor
  · exact ⟨String.mk bj, by simp [format_output, hbj], hpj⟩
  · exact ⟨String.mk byml, by simp [format_output, hne, hby], hpy⟩

theorem format_output_roundtrip_witness :
    (∃ s, format_output "json" (.dict (.cons "a" (.int 1) (.cons "b" (.int 2) .nil)))
        (fun _ => "") = .ok s
      ∧ parseJsonFlat s = some (.dict (.cons "a" (.int 1) (.cons "b" (.int 2) .nil))))
    ∧ (∃ t, format_output "yaml" (.dict (.cons "a" (.int 1) (.cons "b" (.int 2) .nil)))
        (fun _ => "") = .ok t
      ∧ parseYamlFlat t = some (.dict (.cons "a" (.int 1) (.cons "b" (.int 2) .nil)))) :=
  format_output_roundtrip (.dict (.cons "a" (.int 1) (.cons "b" (.int 2) .nil)))
    (fun _ => "") (by rfl)

end Ado
